import Mathlib

/-!
# Verification of the TWT jetting-grid protocol generator

Shallow embedding of the noise-to-schedule pipeline of
`project-TWT-jetting-grid` (Python sources under `src/protocols` and
`src/src_python`), together with proofs and refutations of the frozen
specification claims.

Conventions of the embedding:
* A valve time series (`numpy` 1-D int8 array of 0/1 values) is a `List Bool`.
* The valve stack (`numpy` array of shape `[N_frames, N_valves]`) is a
  `List (List Bool)` in row-major order: outer index is the frame.
* `np.roll arr k` for positive `k` (roll right) and negative `k` (roll left)
  are `rollRight` / `rollLeft` below, implemented with `List.rotate`
  (`List.rotate l n` rotates *left* by `n`).
* Machine integers are `Int` (durations can in principle be negative in the
  source, where they are differences of index arrays), indices are `Nat`.
* Python exceptions are `Except` errors.
-/

namespace JettingGrid

/-- Errors raised by `utils_valves_stack.py`:
`NoFlanksDetectedException` and `MustDebugThisException`. -/
inductive AdjErr where
  | noFlanks
  | mustDebug
  deriving DecidableEq, Repr

/-- `np.roll y (-t)`: roll left by `t` (`t` is taken modulo the length,
matching numpy). -/
def rollLeft (y : List Bool) (t : Nat) : List Bool :=
  y.rotate t

/-- `np.roll y t` for `t ≥ 0`: roll right by `t` modulo the length. -/
def rollRight (y : List Bool) (t : Nat) : List Bool :=
  if y.length = 0 then y else y.rotate (y.length - t % y.length)

/-- Circular read access `y[i % len]` (defaulting to `false` on the empty
list, which never occurs in proofs). -/
def cget (y : List Bool) (i : Nat) : Bool :=
  y.getD (i % y.length) false

/-- `y[a:b] = v` for a numpy int array slice: every index `i` with
`a ≤ i < b` is overwritten by `v`. -/
def setSlice (y : List Bool) (a b : Nat) (v : Bool) : List Bool :=
  (List.range y.length).zipWith (fun i x => if a ≤ i ∧ i < b then v else x) y

/-- `_find_first_downflank` of `utils_valves_stack.py`: scan with a compare
value initialized to `y[0]`; on the first element differing from the compare
value, return its index when the compare value is 1, else continue with
compare value 1.  Returns `none` where the Python raises
`NoFlanksDetectedException`. -/
def ffdAux (cv : Bool) (i : Nat) : List Bool → Option Nat
  | [] => none
  | v :: rest =>
    if v ≠ cv then
      if cv then some i else ffdAux true (i + 1) rest
    else
      ffdAux cv (i + 1) rest

def find_first_downflank (y : List Bool) : Option Nat :=
  match y with
  | [] => none
  | c :: _ => ffdAux c 0 y

/-- Indices `i+1` (1-based offset `i0`) of positions where
`np.diff y == +1`, i.e. a `0→1` step: `np.where(np.diff(y) == 1)[0] + 1`. -/
def upflanksFrom (i0 : Nat) : List Bool → List Nat
  | a :: b :: rest =>
    if a = false ∧ b = true then (i0 + 1) :: upflanksFrom (i0 + 1) (b :: rest)
    else upflanksFrom (i0 + 1) (b :: rest)
  | _ => []

/-- Indices of `1→0` steps: `np.where(np.diff(y) == -1)[0] + 1`. -/
def downflanksFrom (i0 : Nat) : List Bool → List Nat
  | a :: b :: rest =>
    if a = true ∧ b = false then (i0 + 1) :: downflanksFrom (i0 + 1) (b :: rest)
    else downflanksFrom (i0 + 1) (b :: rest)
  | _ => []

def upflanks (y : List Bool) : List Nat := upflanksFrom 0 y

def downflanks (y : List Bool) : List Nat := downflanksFrom 0 y

/-- Result record of `_detect_segments`. -/
structure DetectRes where
  y : List Bool
  t_offset : Nat
  t_upfl : List Nat
  t_dnfl : List Nat
  t_dnfl_star : List Nat
  durations_lo : List Int
  durations_hi : List Int
  deriving DecidableEq, Repr

/-- `durations_lo = t_upfl - t_dnfl` (with the prepended 0), as numpy int
subtraction of the index arrays. -/
def durLo (z : List Bool) : List Int :=
  List.zipWith (fun (u d : Nat) => (u : Int) - (d : Int)) (upflanks z) (0 :: downflanks z)

/-- `durations_hi = t_dnfl_star - t_upfl` (with the appended `N_frames`). -/
def durHi (z : List Bool) (N : Nat) : List Int :=
  List.zipWith (fun (d u : Nat) => (d : Int) - (u : Int)) (downflanks z ++ [N]) (upflanks z)

/-- `_detect_segments` of `utils_valves_stack.py`.  Rolls the series to start
at the first detected downflank, then computes up/downflank indices and the
durations of all `0`- and `1`-segments.  The two sanity checks raise
`MustDebugThisException`. -/
def detect_segments (y0 : List Bool) : Except AdjErr DetectRes :=
  match find_first_downflank y0 with
  | none => .error .noFlanks
  | some t_offset =>
    if (upflanks (rollLeft y0 t_offset)).length ≠
        (0 :: downflanks (rollLeft y0 t_offset)).length then .error .mustDebug
    else if (durLo (rollLeft y0 t_offset)).sum +
        (durHi (rollLeft y0 t_offset) y0.length).sum ≠ (y0.length : Int) then
      .error .mustDebug
    else
      .ok ⟨rollLeft y0 t_offset, t_offset,
        upflanks (rollLeft y0 t_offset),
        0 :: downflanks (rollLeft y0 t_offset),
        downflanks (rollLeft y0 t_offset) ++ [y0.length],
        durLo (rollLeft y0 t_offset),
        durHi (rollLeft y0 t_offset) y0.length⟩

/-- One sweep `for k, seglen in enumerate(durations_hi): if seglen < D:
y[t_upfl[k] : t_dnfl_star[k]] = 0` — and symmetrically for the low
durations with fill value 1.  The index lists are fixed before the sweep,
`y` is updated sequentially. -/
def removeShortSegs (y : List Bool) (starts stops : List Nat)
    (durs : List Int) (D : Int) (v : Bool) : List Bool :=
  (durs.zip (starts.zip stops)).foldl
    (fun acc kd => if kd.1 < D then setSlice acc kd.2.1 kd.2.2 v else acc) y

/-- Per-valve body of the loop in `adjust_minimum_valve_durations`:
three segment-detection passes with the two removal sweeps in an order
decided by the valve-index parity, the final sanity check, and the roll
back by the accumulated offset. -/
def adjustColumn (valve_idx : Nat) (D : Int) (y0 : List Bool) :
    Except AdjErr (List Bool) :=
  match detect_segments y0 with
  | .error e => .error e
  | .ok r1 =>
    if valve_idx % 2 = 0 then
      -- Remove too short 'valve on' durations, then too short 'valve off' ones
      match detect_segments
          (removeShortSegs r1.y r1.t_upfl r1.t_dnfl_star r1.durations_hi D false) with
      | .error e => .error e
      | .ok r2 =>
        match detect_segments
            (removeShortSegs r2.y r2.t_dnfl r2.t_upfl r2.durations_lo D true) with
        | .error e => .error e
        | .ok r3 =>
          if r3.durations_lo.any (· < D) ∨ r3.durations_hi.any (· < D) then
            .error .mustDebug
          else
            .ok (rollRight r3.y (r3.t_offset + r2.t_offset + r1.t_offset))
    else
      -- Remove too short 'valve off' durations, then too short 'valve on' ones
      match detect_segments
          (removeShortSegs r1.y r1.t_dnfl r1.t_upfl r1.durations_lo D true) with
      | .error e => .error e
      | .ok r2 =>
        match detect_segments
            (removeShortSegs r2.y r2.t_upfl r2.t_dnfl_star r2.durations_hi D false) with
        | .error e => .error e
        | .ok r3 =>
          if r3.durations_lo.any (· < D) ∨ r3.durations_hi.any (· < D) then
            .error .mustDebug
          else
            .ok (rollRight r3.y (r3.t_offset + r2.t_offset + r1.t_offset))

/-- Column `v` of a row-major stack: `valves_stack[:, v]`. -/
def column (stack : List (List Bool)) (v : Nat) : List Bool :=
  stack.map (fun row => row.getD v false)

/-- Number of valves `N_valves = valves_stack.shape[1]`. -/
def nValves (stack : List (List Bool)) : Nat := (stack.headD []).length

/-- The `for valve_idx in np.arange(N_valves)` loop: adjust each listed
valve in order, stopping at the first raised exception. -/
def adjustColumns (D : Int) (stack : List (List Bool)) :
    List Nat → Except AdjErr (List (List Bool))
  | [] => .ok []
  | v :: vs =>
    match adjustColumn v D (column stack v), adjustColumns D stack vs with
    | .ok c, .ok cs => .ok (c :: cs)
    | .error e, _ => .error e
    | .ok _, .error e => .error e

/-- `adjust_minimum_valve_durations` of `utils_valves_stack.py`.  When
`min_valve_duration ≤ 1` the input stack is returned unchanged, else the
output stack is rebuilt column by column from the adjusted time series. -/
def adjust_minimum_valve_durations (stack : List (List Bool)) (D : Int) :
    Except AdjErr (List (List Bool)) :=
  if D ≤ 1 then .ok stack
  else
    match adjustColumns D stack (List.range (nValves stack)) with
    | .error e => .error e
    | .ok cols =>
      .ok ((List.range stack.length).map (fun t =>
        (List.range (nValves stack)).map (fun v => (cols.getD v []).getD t false)))

/-! ## Specification-side predicates on circular series -/

/-- Position `i < T` starts a *maximal circular run*: the circular
predecessor `y[(i+T-1) % T]` differs from `y[i]`. -/
def circRunStart (y : List Bool) (i : Nat) : Prop :=
  cget y (i + y.length - 1) ≠ cget y i

instance (y : List Bool) (i : Nat) : Decidable (circRunStart y i) := by
  unfold circRunStart; infer_instance

/-- Every maximal run of the circular series `y` (runs wrapping the
`t = T-1` to `t = 0` boundary included) has length at least `d`:
from every run start, the following `d - 1` circular samples keep the
same value. -/
def minCircRunsOK (y : List Bool) (d : Nat) : Prop :=
  ∀ i, i < y.length → circRunStart y i →
    ∀ j, j < d → 0 < j → cget y (i + j) = cget y i

instance (y : List Bool) (d : Nat) : Decidable (minCircRunsOK y d) := by
  unfold minCircRunsOK; infer_instance

/-- The circular series contains a downflank: some position holds 0 while
its circular predecessor holds 1. -/
def hasCircDownflank (y : List Bool) : Prop :=
  ∃ i, i < y.length ∧ cget y (i + y.length - 1) = true ∧ cget y i = false

instance (y : List Bool) : Decidable (hasCircDownflank y) := by
  unfold hasCircDownflank
  exact decidable_of_iff (∃ i < y.length, cget y (i + y.length - 1) = true ∧ cget y i = false)
    (by constructor <;> (rintro ⟨i, h1, h2⟩; exact ⟨i, h1, h2⟩))

/-! ## Helper notions for the run-length proofs -/

/-- Positions `i0 + k + 1` where element `k` and `k + 1` of the list differ
(all flanks, both directions). -/
def chgFrom (i0 : Nat) : List Bool → List Nat
  | a :: b :: rest =>
    if a ≠ b then (i0 + 1) :: chgFrom (i0 + 1) (b :: rest)
    else chgFrom (i0 + 1) (b :: rest)
  | _ => []

/-- Alternate the elements of two lists, starting with the first. -/
def interleave : List α → List α → List α
  | [], ys => ys
  | x :: xs, [] => x :: xs
  | x :: xs, y :: ys => x :: y :: interleave xs ys

/-- The boundary list `0 :: flanks ++ [N]` of a series that starts low and
ends high. -/
def boundaryList (z : List Bool) : List Nat :=
  0 :: (chgFrom 0 z ++ [z.length])

instance gapTrans (D : Nat) : IsTrans Nat (fun a b => a + D ≤ b) :=
  ⟨fun a b c hab hbc => by omega⟩

instance ltTransNat : IsTrans Nat (fun a b : Nat => a < b) :=
  ⟨fun _ _ _ hab hbc => lt_trans hab hbc⟩

/-! ## Concrete example stacks used in witnesses and counterexamples -/

/-- A `[T=8, V=1]` stack whose single series already satisfies `D_min = 2`;
the adjuster returns it unchanged. -/
def stackW1 : List (List Bool) :=
  [[true], [true], [false], [false], [true], [true], [false], [false]]

/-- A `[T=3, V=1]` stack with a constant (all-off) valve series. -/
def stackC4 : List (List Bool) := [[false], [false], [false]]

/-- A `[T=8, V=1]` stack on which one adjuster pass with `D_min = 2`
succeeds, but whose output has a single on-run and a single off-run. -/
def stackC6 : List (List Bool) :=
  [[true], [true], [false], [false], [false], [true], [true], [false]]

/-- The adjusted output of `stackC6`: the wrapping on-run has been extended,
leaving one on-segment and one off-segment in the loop. -/
def stackC6out : List (List Bool) :=
  [[true], [true], [false], [false], [false], [true], [true], [true]]

/-! ## Alias-instrumented embedding of the adjuster (frame effects)

In the source, `y = valves_stack_in[:, valve_idx]` is a numpy *view*: an
in-place slice assignment `y[a:b] = v` before any reassignment of `y`
would write through into `valves_stack_in`.  `_detect_segments` replaces
`y` by `np.roll(y, -t)`, a fresh array, after which writes no longer
alias the input.  The instrumented embedding tracks this aliasing
explicitly: program state carries the input stack contents, the current
`y` buffer, and whether `y` still aliases the input column. -/

structure VState where
  stack_in : List (List Bool)
  valve_idx : Nat
  y : List Bool
  aliased : Bool
  deriving Repr

/-- Write `val` into rows `a ≤ t < b` of column `v` of the stack (the
effect of an in-place slice assignment through a column view). -/
def writeColSlice (stack : List (List Bool)) (v a b : Nat) (val : Bool) :
    List (List Bool) :=
  (List.range stack.length).zipWith
    (fun t row => if a ≤ t ∧ t < b then row.set v val else row) stack

/-- `y[a:b] = val` under the aliasing model: always updates the `y`
buffer; also writes through into the input stack when `y` is a view. -/
def writeSliceA (a b : Nat) (val : Bool) (st : VState) : VState :=
  { stack_in :=
      if st.aliased then writeColSlice st.stack_in st.valve_idx a b val
      else st.stack_in,
    valve_idx := st.valve_idx,
    y := setSlice st.y a b val,
    aliased := st.aliased }

/-- `_detect_segments` under the aliasing model: `np.roll` allocates a
fresh array, so afterwards `y` no longer aliases the input column. -/
def detectA (st : VState) : Except AdjErr (DetectRes × VState) :=
  match detect_segments st.y with
  | .error e => .error e
  | .ok r => .ok (r, ⟨st.stack_in, st.valve_idx, r.y, false⟩)

/-- A removal sweep under the aliasing model. -/
def removeShortSegsA (starts stops : List Nat) (durs : List Int) (D : Int)
    (val : Bool) (st : VState) : VState :=
  (durs.zip (starts.zip stops)).foldl
    (fun acc kd => if kd.1 < D then writeSliceA kd.2.1 kd.2.2 val acc else acc) st

/-- Per-valve adjustment under the aliasing model; returns the result and
the final contents of `valves_stack_in`. -/
def adjustColumnA (v : Nat) (D : Int) (stack : List (List Bool)) :
    Except AdjErr (List Bool) × List (List Bool) :=
  match detectA ⟨stack, v, column stack v, true⟩ with
  | .error e => (.error e, stack)
  | .ok (r1, st1) =>
    if v % 2 = 0 then
      match detectA (removeShortSegsA r1.t_upfl r1.t_dnfl_star r1.durations_hi D false st1) with
      | .error e =>
        (.error e, (removeShortSegsA r1.t_upfl r1.t_dnfl_star r1.durations_hi D false st1).stack_in)
      | .ok (r2, st2) =>
        match detectA (removeShortSegsA r2.t_dnfl r2.t_upfl r2.durations_lo D true st2) with
        | .error e =>
          (.error e, (removeShortSegsA r2.t_dnfl r2.t_upfl r2.durations_lo D true st2).stack_in)
        | .ok (r3, st3) =>
          if r3.durations_lo.any (· < D) ∨ r3.durations_hi.any (· < D) then
            (.error .mustDebug, st3.stack_in)
          else
            (.ok (rollRight st3.y (r3.t_offset + r2.t_offset + r1.t_offset)), st3.stack_in)
    else
      match detectA (removeShortSegsA r1.t_dnfl r1.t_upfl r1.durations_lo D true st1) with
      | .error e =>
        (.error e, (removeShortSegsA r1.t_dnfl r1.t_upfl r1.durations_lo D true st1).stack_in)
      | .ok (r2, st2) =>
        match detectA (removeShortSegsA r2.t_upfl r2.t_dnfl_star r2.durations_hi D false st2) with
        | .error e =>
          (.error e, (removeShortSegsA r2.t_upfl r2.t_dnfl_star r2.durations_hi D false st2).stack_in)
        | .ok (r3, st3) =>
          if r3.durations_lo.any (· < D) ∨ r3.durations_hi.any (· < D) then
            (.error .mustDebug, st3.stack_in)
          else
            (.ok (rollRight st3.y (r3.t_offset + r2.t_offset + r1.t_offset)), st3.stack_in)

/-- The valve loop under the aliasing model, threading the (possibly
mutated) input stack through the per-valve calls. -/
def adjustColumnsA (D : Int) : List Nat → List (List Bool) →
    Except AdjErr (List (List Bool)) × List (List Bool)
  | [], stack => (.ok [], stack)
  | v :: vs, stack =>
    match adjustColumnA v D stack with
    | (.error e, stack') => (.error e, stack')
    | (.ok c, stack') =>
      match adjustColumnsA D vs stack' with
      | (.ok cs, stack'') => (.ok (c :: cs), stack'')
      | (.error e, stack'') => (.error e, stack'')

/-- `adjust_minimum_valve_durations` under the aliasing model: the result
together with the final contents of `valves_stack_in`. -/
def adjustAliased (stack : List (List Bool)) (D : Int) :
    Except AdjErr (List (List Bool)) × List (List Bool) :=
  if D ≤ 1 then (.ok stack, stack)
  else
    match adjustColumnsA D (List.range (nValves stack)) stack with
    | (.error e, stack') => (.error e, stack')
    | (.ok cols, stack') =>
      (.ok ((List.range stack.length).map (fun t =>
        (List.range (nValves stack)).map (fun v => (cols.getD v []).getD t false))), stack')

/-! ## Mode-2 binarizer (`utils_img_stack.py`)

A grayscale frame is embedded as its flattened pixel list (`List ℚ`,
`N²` entries; `arr_in.shape[0] * arr_in.shape[1] = length`).  Pixel
values are rationals in the embedding (the source uses floats; the
discrepancies settled for C2/C3 are structural and visible at exactly
representable values). -/

/-- `_newton_fun` of `utils_img_stack.py`:
`target - len(np.where(arr_in > x)[0]) / arr_in.shape[0] / arr_in.shape[1]`. -/
def newton_fun (x : ℚ) (arr_in : List ℚ) (target : ℚ) : ℚ :=
  target - ((arr_in.filter (fun p => x < p)).length : ℚ) / ((arr_in.length : ℚ))

/-- Modelled from the spec: the root finder behind `scipy.optimize.newton`
(external library code, not part of this repository).  Per §4.3 and §9 of
the spec it is Newton's method with a finite-difference slope, a step
tolerance, and a maximum iteration count; a zero slope or exhausting
`maxiter` is a divergence (scipy raises `RuntimeError` there).  Returns
the last iterate and the convergence flag. -/
def newton_fd (f : ℚ → ℚ) (tol : ℚ) : Nat → ℚ → ℚ × Bool
  | 0, x => (x, false)
  | n + 1, x =>
    if (f (x + 1/10000) - f x) / (1/10000) = 0 then (x, false)
    else
      if |x - f x / ((f (x + 1/10000) - f x) / (1/10000)) - x| ≤ tol then
        (x - f x / ((f (x + 1/10000) - f x) / (1/10000)), true)
      else
        newton_fd f tol n (x - f x / ((f (x + 1/10000) - f x) / (1/10000)))

/-- Per-frame output of the mode-2 binarizer: the threshold actually used
to binarize the frame, the convergence flag, the binary frame, and its
transparency. -/
structure FrameOut where
  threshold : ℚ
  converged : Bool
  bw : List Bool
  alpha : ℚ
  deriving DecidableEq, Repr

/-- One iteration of the loop in `binarize_stack_using_newton`: call the
solver with initial guess `0` (the literal second argument of the
`optimize.newton` call), `tol=0.02`, `maxiter=20`.  On failure the
`except:` branch records non-convergence and the Python local `threshold`
keeps its value from the previous iteration (`carry`); if no iteration has
assigned it yet, the subsequent `stack_in[i] > threshold` raises
`NameError`. -/
def binarize_frame_newton (target : ℚ) (carry : Option ℚ) (frame : List ℚ) :
    Except String (FrameOut × Option ℚ) :=
  match newton_fd (fun x => newton_fun x frame target) (2/100) 20 0 with
  | (tau, true) =>
    .ok (⟨tau, true, frame.map (fun p => tau < p),
      ((frame.filter (fun p => tau < p)).length : ℚ) / ((frame.length : ℚ))⟩, some tau)
  | (_, false) =>
    match carry with
    | none => .error "NameError"
    | some tau =>
      .ok (⟨tau, false, frame.map (fun p => tau < p),
        ((frame.filter (fun p => tau < p)).length : ℚ) / ((frame.length : ℚ))⟩, some tau)

/-- `binarize_stack_using_newton` of `utils_img_stack.py`: process the
frames in order, threading the Python-local `threshold` variable. -/
def binarize_stack_using_newton (target : ℚ) :
    List (List ℚ) → Option ℚ → Except String (List FrameOut)
  | [], _ => .ok []
  | frame :: rest, carry =>
    match binarize_frame_newton target carry frame with
    | .error e => .error e
    | .ok (out, carry') =>
      match binarize_stack_using_newton target rest carry' with
      | .ok outs => .ok (out :: outs)
      | .error e => .error e

/-- The claim's threshold (spec §4.3): Newton's method on
`f(τ) = α* − #{px : img > τ}/N²` with initial guess `τ₀ = 1 − α*`,
tolerance 0.02, at most 20 iterations. -/
def spec_newton_threshold (frame : List ℚ) (target : ℚ) : ℚ × Bool :=
  newton_fd (fun tau => target -
    ((frame.filter (fun p => tau < p)).length : ℚ) / ((frame.length : ℚ)))
    (2/100) 20 (1 - target)

/-- Concrete 2×2 frame used in the C2/C3 counterexamples. -/
def frameA : List ℚ := [1/20000, 1/2, 3/4, 1]

/-- Concrete 2×2 frame on which the solver diverges from initial guess 0
(the finite-difference slope there is zero). -/
def frameB : List ℚ := [1/8000, 1/2, 1/2, 1/2]

/-- The mode-2 output on the two-frame stack `[frameA, frameB]` with
target transparency 1/2: frame 1 diverges and reuses frame 0's
threshold. -/
def C3outs : List FrameOut :=
  [⟨1/5000, true, [false, true, true, true], 3/4⟩,
   ⟨1/5000, false, [false, true, true, true], 3/4⟩]

/-! ## Valve layout (`constants.py` and `config_proto_opensimplex.py`) -/

/-- `PCS_X_MIN` of `constants.py`. -/
def PCS_X_MIN : Int := -7

/-- `PCS_X_MAX` of `constants.py`. -/
def PCS_X_MAX : Int := 7

/-- `NUMEL_PCS_AXIS = PCS_X_MAX - PCS_X_MIN + 1`. -/
def NUMEL_PCS_AXIS : Nat := (PCS_X_MAX - PCS_X_MIN + 1).toNat

/-- `N_VALVES = floor(NUMEL_PCS_AXIS² / 2)`. -/
def N_VALVES : Nat := NUMEL_PCS_AXIS * NUMEL_PCS_AXIS / 2

/-- `np.arange start stop step` over naturals. -/
def np_arange (start stop step : Nat) : List Nat :=
  (List.range ((stop - start + step - 1) / step)).map (fun j => start + step * j)

/-- `_coords = np.arange(PCS_X_MIN, PCS_X_MAX + 1)`. -/
def pcs_coords : List Int :=
  (List.range NUMEL_PCS_AXIS).map (fun j => PCS_X_MIN + (j : Int))

/-- Row-major flattening of `np.meshgrid(_coords, _coords)[0]`: each row of
`grid_x` is a copy of `_coords`. -/
def grid_pcs_x_flat : List Int := (List.replicate NUMEL_PCS_AXIS pcs_coords).flatten

/-- Row-major flattening of `np.meshgrid(_coords, _coords)[1]`: row `i` of
`grid_y` is constantly `_coords[i]`. -/
def grid_pcs_y_flat : List Int :=
  (pcs_coords.map (fun c => List.replicate NUMEL_PCS_AXIS c)).flatten

/-- The numpy slice `[1::2]`: every element at an odd index. -/
def slice_odd : List α → List α
  | [] => []
  | [_] => []
  | _ :: b :: rest => b :: slice_odd rest

/-- `valve2pcs_x = np.reshape(_grid_x, -1)[1::2]` of `constants.py`. -/
def valve2pcs_x : List Int := slice_odd grid_pcs_x_flat

/-- `valve2pcs_y = np.reshape(_grid_y, -1)[1::2]` of `constants.py`. -/
def valve2pcs_y : List Int := slice_odd grid_pcs_y_flat

/-- `PCS_PIXEL_DIST` of `config_proto_opensimplex.py`. -/
def PCS_PIXEL_DIST : Nat := 32

/-- `N_PIXELS = PCS_PIXEL_DIST * (NUMEL_PCS_AXIS + 1)`. -/
def N_PIXELS : Nat := PCS_PIXEL_DIST * (NUMEL_PCS_AXIS + 1)

/-- `_pxs = np.arange(PCS_PIXEL_DIST - 1, N_PIXELS - (PCS_PIXEL_DIST - 1),
PCS_PIXEL_DIST)` of `config_proto_opensimplex.py`. -/
def pxs : List Nat :=
  np_arange (PCS_PIXEL_DIST - 1) (N_PIXELS - (PCS_PIXEL_DIST - 1)) PCS_PIXEL_DIST

/-- `valve2px_x` of `config_proto_opensimplex.py`. -/
def valve2px_x : List Nat := slice_odd (List.replicate NUMEL_PCS_AXIS pxs).flatten

/-- `valve2px_y` of `config_proto_opensimplex.py`. -/
def valve2px_y : List Nat :=
  slice_odd (pxs.map (fun c => List.replicate NUMEL_PCS_AXIS c)).flatten

/-- Specification-side cell list: the 15×15 grid on `[-7,7]²` in row-major
order. -/
def gridCellsRowMajor : List (Int × Int) :=
  ((List.range 15).map (fun r =>
    (List.range 15).map (fun c => ((c : Int) - 7, (r : Int) - 7)))).flatten

/-! ## Protocol exporter and parser (`utils_protocols.py`,
`JettingGrid_upload.py`)

Text is embedded at the character level (`List Char`); a line is the list
of characters between newlines. -/

/-- Decimal rendering of a natural number, as Python `str`/`%d`. -/
def natToChars (n : Nat) : List Char := Nat.toDigits 10 n

/-- Decimal rendering of an integer, as Python `%d`. -/
def intToChars (i : Int) : List Char :=
  if i < 0 then '-' :: natToChars i.natAbs else natToChars i.natAbs

/-- Parse an unsigned decimal number (digit characters only, nonempty);
the core of Python's `int(str)` on the exporter's output tokens. -/
def parseNatChars (s : List Char) : Option Nat :=
  if s ≠ [] ∧ s.all (fun c => c.isDigit) then
    some (s.foldl (fun acc c => acc * 10 + (c.toNat - 48)) 0)
  else none

/-- Python `int(str)` on an optionally `-`-signed decimal token (the
exporter emits no `+` sign or whitespace). -/
def parseIntChars (s : List Char) : Option Int :=
  match s with
  | '-' :: rest => (parseNatChars rest).map (fun n => -(n : Int))
  | _ => (parseNatChars s).map (fun n => (n : Int))

/-- Python `str.split(sep)` for a single-character separator. -/
def splitOnChar (c : Char) : List Char → List (List Char)
  | [] => [[]]
  | x :: xs =>
    match splitOnChar c xs with
    | [] => [[]]
    | h :: t => if x = c then [] :: h :: t else (x :: h) :: t

/-- The `"x,y"` token of one open valve:
`f"{pcs_x:d},{pcs_y:d}"` in `export_protocol_to_disk`. -/
def exportPoint (x y : Int) : List Char := intToChars x ++ [','] ++ intToChars y

/-- The `"x,y"` token of valve `v`. -/
def exportPointOfValve (v : Nat) : List Char :=
  exportPoint (valve2pcs_x.getD v 0) (valve2pcs_y.getD v 0)

/-- The PCS coordinates of valve `v` as a pair. -/
def pcsPair (v : Nat) : Int × Int := (valve2pcs_x.getD v 0, valve2pcs_y.getD v 0)

/-- Indices of the open valves of a frame row, in increasing order
(`for valve_idx, state in enumerate(...): if state:`). -/
def openIdx (row : List Bool) : List Nat :=
  (List.range row.length).filter (fun v => row.getD v false)

/-- The coordinate tokens' point values of a frame row. -/
def openPoints (row : List Bool) : List (Int × Int) := (openIdx row).map pcsPair

/-- One `[DATA]` line of `export_protocol_to_disk`: the duration in whole
milliseconds, then one tab-prefixed `"x,y"` token per open valve. -/
def export_data_line (dur_ms : Nat) (row : List Bool) : List Char :=
  natToChars dur_ms ++
    ((openIdx row).map (fun v => '\t' :: exportPointOfValve v)).flatten

/-- One point token as parsed by `upload_protocol`:
`str_x, str_y = str_point.split(","); P(int(str_x), int(str_y))`. -/
def parsePointToken (tok : List Char) : Option (Int × Int) :=
  match splitOnChar ',' tok with
  | [sx, sy] =>
    match parseIntChars sx, parseIntChars sy with
    | some x, some y => some (x, y)
    | _, _ => none
  | _ => none

/-- The loop `for str_point in str_points:` of `upload_protocol`, parsing
every point token in order. -/
def parsePoints : List (List Char) → Option (List (Int × Int))
  | [] => some []
  | tok :: rest =>
    match parsePointToken tok, parsePoints rest with
    | some p, some ps => some (p :: ps)
    | _, _ => none

/-- One `[DATA]` line as parsed by `upload_protocol`:
`fields = line.split("\t"); duration = int(fields[0])`, then every
remaining field is a point token. -/
def parse_data_line (line : List Char) : Option (Int × List (Int × Int)) :=
  match splitOnChar '\t' line with
  | [] => none
  | durTok :: pointToks =>
    match parseIntChars durTok with
    | none => none
    | some dur =>
      match parsePoints pointToks with
      | none => none
      | some pts => some (dur, pts)

/-- Recover the per-valve open bits of a frame from the parsed point list:
valve `v` is open exactly when its PCS coordinates occur among the line's
points. -/
def recover_row (pts : List (Int × Int)) : List Bool :=
  (List.range N_VALVES).map (fun v => decide (pcsPair v ∈ pts))

/-- `DT_FRAME` of `config_proto_opensimplex.py` (0.05 s). -/
def DT_FRAME : ℚ := 1/20

/-- The duration token value `round(DT_FRAME * 1000)` in milliseconds for
the configured `DT_FRAME`. -/
def durMs : Nat := 50

/-! ## Protocol header (`config_proto_opensimplex.py`)

The header renders every configuration value with Python string
formatting; the embedding takes the already-rendered value strings (the
claims settled here do not depend on float formatting) plus the
`datetime.now()` timestamp string. -/

structure HeaderCfg where
  n_frames : String
  dt_frame : String
  bw_threshold : String
  target_transparency : String
  sfs_a : String
  sfs_b : String
  tfs_a : String
  tfs_b : String
  seed_a : String
  seed_b : String
  min_valve_duration : String
  pcs_pixel_dist : String
  n_pixels : String
  x_step_a : String
  x_step_b : String
  t_step_a : String
  t_step_b : String
  deriving DecidableEq, Repr

/-- `f"{'KEY':<25}"`: the key left-padded to a 25-character column. -/
def padKey (k : String) : String :=
  k ++ String.mk (List.replicate (25 - k.length) ' ')

/-- `create_header_string` of `config_proto_opensimplex.py`, as the list
of lines it contributes to the file (blank strings are the empty lines
produced by the `\n\n` separators). -/
def create_header_string (cfg : HeaderCfg) (now : String) : List String :=
  [padKey "TYPE" ++ "OpenSimplex noise v2.0",
   padKey "DATE" ++ now, "",
   padKey "N_FRAMES" ++ cfg.n_frames,
   padKey "DT_FRAME" ++ cfg.dt_frame ++ " s", "",
   padKey "BW_THRESHOLD" ++ cfg.bw_threshold,
   padKey "TARGET_TRANSPARENCY" ++ cfg.target_transparency, "",
   padKey "SPATIAL_FEATURE_SIZE_A" ++ cfg.sfs_a,
   padKey "SPATIAL_FEATURE_SIZE_B" ++ cfg.sfs_b, "",
   padKey "TEMPORAL_FEATURE_SIZE_A" ++ cfg.tfs_a,
   padKey "TEMPORAL_FEATURE_SIZE_B" ++ cfg.tfs_b, "",
   padKey "SEED_A" ++ cfg.seed_a,
   padKey "SEED_B" ++ cfg.seed_b, "",
   padKey "MIN_VALVE_DURATION" ++ cfg.min_valve_duration ++ " frames", "",
   padKey "PCS_PIXEL_DIST" ++ cfg.pcs_pixel_dist,
   padKey "N_PIXELS" ++ cfg.n_pixels,
   padKey "X_STEP_A" ++ cfg.x_step_a,
   padKey "X_STEP_B" ++ cfg.x_step_b,
   padKey "T_STEP_A" ++ cfg.t_step_a,
   padKey "T_STEP_B" ++ cfg.t_step_b, ""]

/-- `export_protocol_to_disk` of `utils_protocols.py`, as the list of
lines of the written `.proto` file. -/
def export_protocol_lines (cfg : HeaderCfg) (now : String)
    (stack : List (List Bool)) : List String :=
  ("[HEADER]" :: create_header_string cfg now) ++
  ("[DATA]" :: stack.map (fun row => String.mk (export_data_line durMs row)))

/-- The configuration of `config_proto_opensimplex.py` as rendered by the
header f-string. -/
def cfgSim004 : HeaderCfg :=
  ⟨"5000", "0.05", "None", "0.4", "50", "100", "10", "10", "1", "13", "5",
   "32", "512", "0.02", "0.01", "0.1", "0.1"⟩

theorem interleave_cons (x : α) (xs ys : List α) :
    interleave (x :: xs) ys = x :: interleave ys xs := by
  induction xs generalizing x ys with
  | nil => cases ys <;> rfl
  | cons x' xs' ih =>
    cases ys with
    | nil => rfl
    | cons y ys' =>
      show x :: y :: interleave (x' :: xs') ys' = x :: y :: x' :: interleave ys' xs'
      rw [ih x' ys']

/-! ## Length preservation -/

theorem rollLeft_length (y : List Bool) (t : Nat) : (rollLeft y t).length = y.length :=
  List.length_rotate y t

theorem rollRight_length (y : List Bool) (t : Nat) : (rollRight y t).length = y.length := by
  unfold rollRight
  split
  · rfl
  · exact List.length_rotate _ _

theorem setSlice_length (y : List Bool) (a b : Nat) (v : Bool) :
    (setSlice y a b v).length = y.length := by
  unfold setSlice
  rw [List.length_zipWith, List.length_range, min_self]

theorem removeShortSegs_length (y : List Bool) (starts stops : List Nat)
    (durs : List Int) (D : Int) (v : Bool) :
    (removeShortSegs y starts stops durs D v).length = y.length := by
  unfold removeShortSegs
  generalize durs.zip (starts.zip stops) = l
  induction l generalizing y with
  | nil => rfl
  | cons hd tl ih =>
    rw [List.foldl_cons, ih]
    split
    · exact setSlice_length _ _ _ _
    · rfl

theorem detect_segments_y_length {y0 : List Bool} {r : DetectRes}
    (h : detect_segments y0 = .ok r) : r.y.length = y0.length := by
  unfold detect_segments at h
  split at h
  · exact absurd h (by simp)
  · split at h
    · exact absurd h (by simp)
    · split at h
      · exact absurd h (by simp)
      · simp only [Except.ok.injEq] at h
        subst h
        exact rollLeft_length _ _

/-! ## `cget` basics -/

theorem cget_eq_getD {y : List Bool} {i : Nat} (h : i < y.length) :
    cget y i = y.getD i false := by
  unfold cget
  rw [Nat.mod_eq_of_lt h]

theorem cget_mod (y : List Bool) (i : Nat) :
    cget y (i % y.length) = cget y i := by
  unfold cget
  rw [Nat.mod_mod_of_dvd _ dvd_rfl]

theorem cget_add_length (y : List Bool) (i : Nat) :
    cget y (i + y.length) = cget y i := by
  unfold cget
  rw [Nat.add_mod_right]

/-! ## `_find_first_downflank` characterization -/

theorem ffdAux_true_spec : ∀ (l : List Bool) (i t : Nat), ffdAux true i l = some t →
    ∃ k, k < l.length ∧ t = i + k ∧ l.getD k false = false ∧
      ∀ m, m < k → l.getD m false = true := by
  intro l
  induction l with
  | nil => intro i t h; exact absurd h (by simp [ffdAux])
  | cons v rest ih =>
    intro i t h
    unfold ffdAux at h
    by_cases hv : v = true
    · subst hv
      simp only [ne_eq, not_true_eq_false, if_false, if_neg] at h
      obtain ⟨k, hk, ht, hval, hpre⟩ := ih (i + 1) t h
      refine ⟨k + 1, by simpa using hk, by omega, by simpa using hval, ?_⟩
      intro m hm
      cases m with
      | zero => rfl
      | succ m' => simpa using hpre m' (by omega)
    · have hv' : v = false := by simpa using hv
      subst hv'
      simp only [ne_eq, Bool.false_eq_true, not_false_eq_true, if_true, if_pos,
        Option.some.injEq] at h
      exact ⟨0, by simp, by omega, by simp, by omega⟩

theorem ffdAux_false_spec : ∀ (l : List Bool) (i t : Nat), ffdAux false i l = some t →
    ∃ k, k < l.length ∧ t = i + k ∧ 1 ≤ k ∧ l.getD k false = false ∧
      l.getD (k - 1) false = true := by
  intro l
  induction l with
  | nil => intro i t h; exact absurd h (by simp [ffdAux])
  | cons v rest ih =>
    intro i t h
    unfold ffdAux at h
    by_cases hv : v = false
    · subst hv
      simp only [ne_eq, not_true_eq_false, if_false, if_neg] at h
      obtain ⟨k, hk, ht, hk1, hval, hprev⟩ := ih (i + 1) t h
      refine ⟨k + 1, by simpa using hk, by omega, by omega, by simpa using hval, ?_⟩
      have : k + 1 - 1 = k := by omega
      rw [this]
      have hk' : k = (k - 1) + 1 := by omega
      rw [hk']
      simpa using hprev
    · have hv' : v = true := by simpa using hv
      subst hv'
      simp only [ne_eq, Bool.true_eq_false, not_false_eq_true, if_true, if_pos] at h
      obtain ⟨k, hk, ht, hval, hpre⟩ := ffdAux_true_spec rest (i + 1) t h
      refine ⟨k + 1, by simpa using hk, by omega, by omega, by simpa using hval, ?_⟩
      cases k with
      | zero => rfl
      | succ k' => simpa using hpre k' (by omega)

theorem find_first_downflank_spec {y : List Bool} {t : Nat}
    (h : find_first_downflank y = some t) :
    1 ≤ t ∧ t < y.length ∧ y.getD t false = false ∧ y.getD (t - 1) false = true := by
  match y with
  | [] => exact absurd h (by simp [find_first_downflank])
  | c :: rest =>
    unfold find_first_downflank at h
    cases hc : c with
    | true =>
      subst hc
      obtain ⟨k, hk, ht, hval, hpre⟩ := ffdAux_true_spec (true :: rest) 0 t h
      have ht0 : t = k := by omega
      subst ht0
      have htpos : 1 ≤ t := by
        by_contra hcon
        have h0 : t = 0 := by omega
        rw [h0] at hval
        simp at hval
      exact ⟨htpos, hk, hval, hpre (t - 1) (by omega)⟩
    | false =>
      subst hc
      obtain ⟨k, hk, ht, hk1, hval, hprev⟩ := ffdAux_false_spec (false :: rest) 0 t h
      have ht0 : t = k := by omega
      subst ht0
      exact ⟨hk1, hk, hval, hprev⟩

theorem ffdAux_none_of_const : ∀ (l : List Bool) (c : Bool) (i : Nat),
    (∀ b ∈ l, b = c) → ffdAux c i l = none := by
  intro l
  induction l with
  | nil => intro c i _; rfl
  | cons v rest ih =>
    intro c i hconst
    have hv : v = c := hconst v (by simp)
    unfold ffdAux
    rw [hv]
    simp only [ne_eq, not_true_eq_false, if_false, if_neg]
    exact ih c (i + 1) (fun b hb => hconst b (by simp [hb]))

theorem find_first_downflank_const {y : List Bool} (c : Bool) (h : ∀ b ∈ y, b = c) :
    find_first_downflank y = none := by
  match y with
  | [] => rfl
  | v :: rest =>
    have hv : v = c := h v (by simp)
    show ffdAux v 0 (v :: rest) = none
    rw [hv]
    exact ffdAux_none_of_const (c :: rest) c 0 (hv ▸ h)

/-- The rolled series starts with a 0 sample and ends with a 1 sample. -/
theorem rolled_ends {y : List Bool} {t : Nat} (h : find_first_downflank y = some t) :
    (rollLeft y t).getD 0 false = false ∧
    (rollLeft y t).getD (y.length - 1) false = true := by
  obtain ⟨ht1, htlen, hval, hprev⟩ := find_first_downflank_spec h
  have hN : 1 ≤ y.length := by omega
  constructor
  · rw [rollLeft, List.getD_eq_getElem _ _ (by rw [List.length_rotate]; omega),
      List.getElem_rotate]
    have : (0 + t) % y.length = t := by
      rw [Nat.zero_add, Nat.mod_eq_of_lt htlen]
    simp only [this]
    rwa [← List.getD_eq_getElem _ false]
  · rw [rollLeft, List.getD_eq_getElem _ _ (by rw [List.length_rotate]; omega),
      List.getElem_rotate]
    have : (y.length - 1 + t) % y.length = t - 1 := by
      have h1 : y.length - 1 + t = y.length + (t - 1) := by omega
      rw [h1, Nat.add_mod_left, Nat.mod_eq_of_lt (by omega)]
    simp only [this]
    rwa [← List.getD_eq_getElem _ false]

/-! ## Flank counting and duration sums -/

/-- Up- and downflank counts of a linear series differ exactly by the
indicator difference of its two endpoint values. -/
theorem upDown_count (l : List Bool) : ∀ i : Nat, 1 ≤ l.length →
    ((upflanksFrom i l).length : Int) - ((downflanksFrom i l).length : Int) =
      (if l.getD (l.length - 1) false = true then 1 else 0) -
      (if l.getD 0 false = true then 1 else 0) := by
  induction l with
  | nil => intro i h; simp at h
  | cons a tail ih =>
    intro i _
    match tail with
    | [] => simp [upflanksFrom, downflanksFrom]
    | b :: rest =>
      have hIH := ih (i + 1) (by simp)
      have hlast : (a :: b :: rest).getD ((a :: b :: rest).length - 1) false =
          (b :: rest).getD ((b :: rest).length - 1) false := by
        simp only [List.length_cons]
        rw [show rest.length + 1 + 1 - 1 = (rest.length + 1 - 1) + 1 by omega]
        simp
      rw [hlast]
      have hup : upflanksFrom i (a :: b :: rest) =
          if a = false ∧ b = true then (i + 1) :: upflanksFrom (i + 1) (b :: rest)
          else upflanksFrom (i + 1) (b :: rest) := rfl
      have hdn : downflanksFrom i (a :: b :: rest) =
          if a = true ∧ b = false then (i + 1) :: downflanksFrom (i + 1) (b :: rest)
          else downflanksFrom (i + 1) (b :: rest) := rfl
      rw [hup, hdn]
      cases hL : (b :: rest).getD ((b :: rest).length - 1) false <;>
        rw [hL] at hIH <;> cases a <;> cases b <;>
        (try simp at hIH) <;> (try simp) <;> omega

theorem sum_zipWith_sub_nat : ∀ (a b : List Nat), a.length = b.length →
    (List.zipWith (fun (x y : Nat) => (x : Int) - (y : Int)) a b).sum =
      (a.map (fun (x : Nat) => (x : Int))).sum - (b.map (fun (x : Nat) => (x : Int))).sum := by
  intro a
  induction a with
  | nil =>
    intro b h
    rw [List.eq_nil_of_length_eq_zero h.symm]
    simp
  | cons x xs ih =>
    intro b h
    match b with
    | [] => simp at h
    | y :: ys =>
      simp only [List.zipWith_cons_cons, List.sum_cons, List.map_cons]
      rw [ih ys (by simpa using h)]
      ring

/-- The on/off durations of `_detect_segments` always total the number of
frames, provided only the flank counts match. -/
theorem sum_durations (up downs : List Nat) (N : Nat)
    (hlen : up.length = downs.length + 1) :
    (List.zipWith (fun (u d : Nat) => (u : Int) - (d : Int)) up (0 :: downs)).sum +
    (List.zipWith (fun (d u : Nat) => (d : Int) - (u : Int)) (downs ++ [N]) up).sum
      = (N : Int) := by
  rw [sum_zipWith_sub_nat up (0 :: downs) (by simp [hlen]),
    sum_zipWith_sub_nat (downs ++ [N]) up (by simp [hlen])]
  simp only [List.map_cons, List.sum_cons, List.map_append, List.sum_append]
  simp

/-! ## Anatomy of a successful `_detect_segments` call -/

theorem detect_segments_ok {y0 : List Bool} {r : DetectRes}
    (h : detect_segments y0 = .ok r) :
    find_first_downflank y0 = some r.t_offset ∧
      r.y = rollLeft y0 r.t_offset ∧
      r.t_upfl = upflanks r.y ∧
      r.t_dnfl = 0 :: downflanks r.y ∧
      r.t_dnfl_star = downflanks r.y ++ [y0.length] ∧
      r.durations_lo = durLo r.y ∧
      r.durations_hi = durHi r.y y0.length ∧
      (upflanks r.y).length = (downflanks r.y).length + 1 := by
  unfold detect_segments at h
  split at h
  · exact absurd h (by simp)
  · rename_i t hfind
    split at h
    · exact absurd h (by simp)
    · split at h
      · exact absurd h (by simp)
      · rename_i hcount _
        simp only [Except.ok.injEq] at h
        subst h
        simp only [List.length_cons] at hcount
        refine ⟨hfind, rfl, rfl, rfl, rfl, rfl, rfl, ?_⟩
        dsimp only
        omega

/-- The two `MustDebugThisException` checks inside `_detect_segments` can
never fire: once a downflank is found, the flank counts match and the
durations total the frame count. -/
theorem detect_segments_ne_mustDebug (y0 : List Bool) :
    detect_segments y0 ≠ .error .mustDebug := by
  cases hfind : find_first_downflank y0 with
  | none =>
    unfold detect_segments
    rw [hfind]
    simp
  | some t =>
    obtain ⟨ht1, htlen, _, _⟩ := find_first_downflank_spec hfind
    obtain ⟨hz0, hzlast⟩ := rolled_ends hfind
    have hzlen : (rollLeft y0 t).length = y0.length := rollLeft_length y0 t
    have hcount : (upflanks (rollLeft y0 t)).length =
        (downflanks (rollLeft y0 t)).length + 1 := by
      have := upDown_count (rollLeft y0 t) 0 (by omega)
      rw [hzlen] at this
      rw [hz0, hzlast] at this
      simp only [Bool.false_eq_true, if_false, if_true, if_neg, if_pos] at this
      unfold upflanks downflanks
      omega
    have hsum := sum_durations (upflanks (rollLeft y0 t))
      (downflanks (rollLeft y0 t)) y0.length hcount
    unfold detect_segments
    rw [hfind]
    show (if _ then _ else _) ≠ _
    rw [if_neg (by simp [hcount]), if_neg (by unfold durLo durHi; simp [hsum])]
    simp

/-- `_detect_segments` fails only with `NoFlanksDetectedException`, and
exactly when the linear scan finds no downflank. -/
theorem detect_segments_error {y0 : List Bool} {e : AdjErr}
    (h : detect_segments y0 = .error e) :
    e = AdjErr.noFlanks ∧ find_first_downflank y0 = none := by
  have hne := detect_segments_ne_mustDebug y0
  cases e with
  | mustDebug => exact absurd h hne
  | noFlanks =>
    refine ⟨rfl, ?_⟩
    cases hfind : find_first_downflank y0 with
    | none => rfl
    | some t =>
      exfalso
      unfold detect_segments at h
      split at h
      · rename_i heq
        rw [hfind] at heq
        exact absurd heq (by simp)
      · split at h
        · simp at h
        · split at h
          · simp at h
          · simp at h

/-! ## Change positions: membership, order, constancy, interleaving -/

theorem chgFrom_mem : ∀ (l : List Bool) (i p : Nat),
    p ∈ chgFrom i l ↔ ∃ k, p = i + k + 1 ∧ k + 1 < l.length ∧
      l.getD k false ≠ l.getD (k + 1) false := by
  intro l
  induction l with
  | nil =>
    intro i p
    constructor
    · intro hp; exact absurd hp (by simp [chgFrom])
    · rintro ⟨k, _, hk, _⟩; simp at hk
  | cons a tail ih =>
    intro i p
    match tail with
    | [] =>
      constructor
      · intro hp; exact absurd hp (by simp [chgFrom])
      · rintro ⟨k, _, hk, _⟩; simp at hk
    | b :: rest =>
      have hch : chgFrom i (a :: b :: rest) =
          if a ≠ b then (i + 1) :: chgFrom (i + 1) (b :: rest)
          else chgFrom (i + 1) (b :: rest) := rfl
      rw [hch]
      constructor
      · intro hp
        by_cases hab : a ≠ b
        · rw [if_pos hab] at hp
          rcases List.mem_cons.1 hp with h1 | h2
          · exact ⟨0, by omega, by simp, by simpa using hab⟩
          · obtain ⟨k, hk1, hk2, hk3⟩ := (ih (i + 1) p).1 h2
            exact ⟨k + 1, by omega, by simpa using hk2, by simpa using hk3⟩
        · rw [if_neg hab] at hp
          obtain ⟨k, hk1, hk2, hk3⟩ := (ih (i + 1) p).1 hp
          exact ⟨k + 1, by omega, by simpa using hk2, by simpa using hk3⟩
      · rintro ⟨k, hk1, hk2, hk3⟩
        cases k with
        | zero =>
          have hab : a ≠ b := by simpa using hk3
          rw [if_pos hab]
          have hp : p = i + 1 := by omega
          rw [hp]
          exact List.mem_cons_self _ _
        | succ k' =>
          have hmem : p ∈ chgFrom (i + 1) (b :: rest) :=
            (ih (i + 1) p).2 ⟨k', by omega, by simpa using hk2, by simpa using hk3⟩
          by_cases hab : a ≠ b
          · rw [if_pos hab]; exact List.mem_cons_of_mem _ hmem
          · rw [if_neg hab]; exact hmem

theorem chgFrom_lb : ∀ (l : List Bool) (i : Nat), ∀ p ∈ chgFrom i l, i < p := by
  intro l i p hp
  obtain ⟨k, hk1, _, _⟩ := (chgFrom_mem l i p).1 hp
  omega

theorem chgFrom_sorted : ∀ (l : List Bool) (i : Nat),
    List.Chain' (· < ·) (chgFrom i l) := by
  intro l
  induction l with
  | nil => intro i; simp [chgFrom]
  | cons a tail ih =>
    intro i
    match tail with
    | [] => simp [chgFrom]
    | b :: rest =>
      have hch : chgFrom i (a :: b :: rest) =
          if a ≠ b then (i + 1) :: chgFrom (i + 1) (b :: rest)
          else chgFrom (i + 1) (b :: rest) := rfl
      rw [hch]
      by_cases hab : a ≠ b
      · rw [if_pos hab]
        refine List.chain'_cons'.2 ⟨?_, ih (i + 1)⟩
        intro q hq
        exact chgFrom_lb (b :: rest) (i + 1) q (List.mem_of_mem_head? hq)
      · rw [if_neg hab]
        exact ih (i + 1)

/-- If no change position lies in `(i, i+d]`, the series is constant there. -/
theorem const_of_no_chg (z : List Bool) : ∀ (d i : Nat), i + d < z.length →
    (∀ p, i < p → p ≤ i + d → p ∉ chgFrom 0 z) →
    z.getD (i + d) false = z.getD i false := by
  intro d
  induction d with
  | zero => intro i _ _; rfl
  | succ d' ih =>
    intro i hlen hno
    have h1 : z.getD (i + d') false = z.getD i false :=
      ih i (by omega) (fun p hp1 hp2 => hno p hp1 (by omega))
    have h2 : z.getD (i + (d' + 1)) false = z.getD (i + d') false := by
      by_contra hne
      have hmem : (i + d' + 1) ∈ chgFrom 0 z :=
        (chgFrom_mem z 0 (i + d' + 1)).2
          ⟨i + d', by omega, by omega, fun he => hne (by
            rw [show i + (d' + 1) = i + d' + 1 by omega]
            exact he.symm)⟩
      exact hno (i + d' + 1) (by omega) (by omega) hmem
    rw [h2, h1]

/-- On a series starting with 0, the change positions are the upflank and
downflank positions interleaved, upflank first; starting with 1 it is the
other way around. -/
theorem chg_eq_interleave : ∀ (l : List Bool) (i : Nat),
    (l.headD false = false →
      chgFrom i l = interleave (upflanksFrom i l) (downflanksFrom i l)) ∧
    (l.headD false = true →
      chgFrom i l = interleave (downflanksFrom i l) (upflanksFrom i l)) := by
  intro l
  induction l with
  | nil => intro i; constructor <;> (intro _; rfl)
  | cons a tail ih =>
    intro i
    match tail with
    | [] =>
      constructor <;> (intro _; cases a <;> rfl)
    | b :: rest =>
      have hIH := ih (i + 1)
      constructor
      · intro ha
        have ha' : a = false := by simpa using ha
        subst ha'
        cases b with
        | false =>
          show chgFrom (i + 1) (false :: rest) = _
          have h1 : upflanksFrom i (false :: false :: rest) =
              upflanksFrom (i + 1) (false :: rest) := rfl
          have h2 : downflanksFrom i (false :: false :: rest) =
              downflanksFrom (i + 1) (false :: rest) := rfl
          rw [h1, h2]
          exact hIH.1 (by simp)
        | true =>
          show (i + 1) :: chgFrom (i + 1) (true :: rest) = _
          have h1 : upflanksFrom i (false :: true :: rest) =
              (i + 1) :: upflanksFrom (i + 1) (true :: rest) := rfl
          have h2 : downflanksFrom i (false :: true :: rest) =
              downflanksFrom (i + 1) (true :: rest) := rfl
          rw [h1, h2, interleave_cons, hIH.2 (by simp)]
      · intro ha
        have ha' : a = true := by simpa using ha
        subst ha'
        cases b with
        | true =>
          show chgFrom (i + 1) (true :: rest) = _
          have h1 : upflanksFrom i (true :: true :: rest) =
              upflanksFrom (i + 1) (true :: rest) := rfl
          have h2 : downflanksFrom i (true :: true :: rest) =
              downflanksFrom (i + 1) (true :: rest) := rfl
          rw [h1, h2]
          exact hIH.2 (by simp)
        | false =>
          show (i + 1) :: chgFrom (i + 1) (false :: rest) = _
          have h1 : downflanksFrom i (true :: false :: rest) =
              (i + 1) :: downflanksFrom (i + 1) (false :: rest) := rfl
          have h2 : upflanksFrom i (true :: false :: rest) =
              upflanksFrom (i + 1) (false :: rest) := rfl
          rw [h1, h2, interleave_cons, hIH.1 (by simp)]

/-! ## Gap chains and durations -/

/-- The consecutive gaps of the boundary sequence
`prev :: up₀ :: dn₀ :: up₁ :: … :: up_K :: N` being at least `D` is the same
as every off- and on-duration being at least `D`. -/
theorem gaps_iff (D : Nat) : ∀ (downs up : List Nat) (prev N : Nat),
    up.length = downs.length + 1 →
    (List.Chain' (fun a b => a + D ≤ b) (prev :: (interleave up downs ++ [N])) ↔
      ((∀ x ∈ List.zipWith (fun (u d : Nat) => (u : Int) - (d : Int)) up (prev :: downs),
          (D : Int) ≤ x) ∧
       (∀ x ∈ List.zipWith (fun (d u : Nat) => (d : Int) - (u : Int)) (downs ++ [N]) up,
          (D : Int) ≤ x))) := by
  intro downs
  induction downs with
  | nil =>
    intro up prev N hlen
    match up with
    | [u] =>
      show List.Chain' _ (prev :: ([u] ++ [N])) ↔ _
      constructor
      · intro hch
        have h1 := (List.chain'_cons.1 hch).1
        have h2 := (List.chain'_cons.1 (List.chain'_cons.1 hch).2).1
        constructor
        · intro x hx
          simp only [List.zipWith_cons_cons, List.zipWith_nil_right, List.mem_singleton] at hx
          omega
        · intro x hx
          simp only [List.nil_append, List.zipWith_cons_cons, List.zipWith_nil_right,
            List.mem_singleton] at hx
          omega
      · rintro ⟨hlo, hhi⟩
        have h1 : (D : Int) ≤ (u : Int) - (prev : Int) := hlo _ (by simp)
        have h2 : (D : Int) ≤ (N : Int) - (u : Int) := hhi _ (by simp)
        exact List.chain'_cons.2 ⟨by omega, List.chain'_cons.2 ⟨by omega, by simp⟩⟩
  | cons d ds ih =>
    intro up prev N hlen
    match up with
    | u :: us =>
      have hlen' : us.length = ds.length + 1 := by simpa using hlen
      rw [interleave_cons, interleave_cons]
      show List.Chain' _ (prev :: u :: d :: (interleave us ds ++ [N])) ↔ _
      rw [List.chain'_cons, List.chain'_cons]
      rw [show (List.Chain' (fun a b => a + D ≤ b) (d :: (interleave us ds ++ [N]))) ↔ _
        from ih us d N hlen']
      constructor
      · rintro ⟨h1, h2, hlo', hhi'⟩
        constructor
        · intro x hx
          simp only [List.zipWith_cons_cons, List.mem_cons] at hx
          rcases hx with hx | hx
          · omega
          · exact hlo' x hx
        · intro x hx
          simp only [List.cons_append, List.zipWith_cons_cons, List.mem_cons] at hx
          rcases hx with hx | hx
          · omega
          · exact hhi' x hx
      · rintro ⟨hlo, hhi⟩
        refine ⟨?_, ?_, ?_, ?_⟩
        · have := hlo _ (by simp only [List.zipWith_cons_cons, List.mem_cons]; left; rfl)
          omega
        · have := hhi _ (by
            simp only [List.cons_append, List.zipWith_cons_cons, List.mem_cons]
            left; rfl)
          omega
        · intro x hx
          exact hlo x (by simp only [List.zipWith_cons_cons, List.mem_cons]; right; exact hx)
        · intro x hx
          exact hhi x (by
            simp only [List.cons_append, List.zipWith_cons_cons, List.mem_cons]
            right; exact hx)

/-- In a pairwise-related list, any two distinct members are related one
way or the other. -/
theorem pairwise_rel_of_mem {R : Nat → Nat → Prop} :
    ∀ {s : List Nat}, List.Pairwise R s →
    ∀ {x y : Nat}, x ∈ s → y ∈ s → x ≠ y → R x y ∨ R y x := by
  intro s
  induction s with
  | nil => intro _ x y hx; simp at hx
  | cons a t ih =>
    intro hp x y hx hy hxy
    have hhead := List.pairwise_cons.1 hp
    rcases List.mem_cons.1 hx with hxa | hxt
    · rcases List.mem_cons.1 hy with hya | hyt
      · exact absurd (hxa.trans hya.symm) hxy
      · exact Or.inl (hxa ▸ hhead.1 y hyt)
    · rcases List.mem_cons.1 hy with hya | hyt
      · exact Or.inr (hya ▸ hhead.1 x hxt)
      · exact ih hhead.2 hxt hyt hxy

theorem cget_congr_mod {y : List Bool} {a b : Nat} (h : a % y.length = b % y.length) :
    cget y a = cget y b := by
  unfold cget
  rw [h]

theorem headD_eq_getD_zero (z : List Bool) : z.headD false = z.getD 0 false := by
  cases z <;> rfl

/-! ## From duration bounds to circular run bounds (and back) -/

theorem boundaryList_eq_interleave {z : List Bool} (h0 : z.getD 0 false = false) :
    boundaryList z = 0 :: (interleave (upflanks z) (downflanks z) ++ [z.length]) := by
  unfold boundaryList upflanks downflanks
  rw [(chg_eq_interleave z 0).1 (by rw [headD_eq_getD_zero]; exact h0)]

theorem chgFrom_ub (z : List Bool) (p : Nat) (hp : p ∈ chgFrom 0 z) : p < z.length := by
  obtain ⟨k, h1, h2, _⟩ := (chgFrom_mem z 0 p).1 hp
  omega

theorem boundaryList_sorted {z : List Bool} (hN : 1 ≤ z.length) :
    List.Chain' (· < ·) (boundaryList z) := by
  unfold boundaryList
  rw [List.chain'_cons']
  refine ⟨?_, ?_⟩
  · intro q hq
    have hqmem : q ∈ chgFrom 0 z ++ [z.length] := List.mem_of_mem_head? hq
    rcases List.mem_append.1 hqmem with hq1 | hq2
    · exact chgFrom_lb z 0 q hq1
    · have hq' : q = z.length := by simpa using hq2
      omega
  · rw [List.chain'_append]
    refine ⟨chgFrom_sorted z 0, by simp, ?_⟩
    intro x hx y hy
    have hy' : y = z.length := by
      simp only [List.head?_cons, Option.mem_def, Option.some.injEq] at hy
      exact hy.symm
    have hx' : x ∈ chgFrom 0 z := List.mem_of_mem_getLast? hx
    subst hy'
    exact chgFrom_ub z x hx'

theorem boundaryList_mem_le {z : List Bool} {x : Nat} (hx : x ∈ boundaryList z) :
    x ≤ z.length := by
  unfold boundaryList at hx
  rcases List.mem_cons.1 hx with h | h
  · omega
  · rcases List.mem_append.1 h with h1 | h2
    · exact le_of_lt (chgFrom_ub z x h1)
    · have : x = z.length := by simpa using h2
      omega

/-- Positions `i ≥ 1` in the boundary list are exactly the linear flanks. -/
theorem mem_boundaryList_of_chg {z : List Bool} {p : Nat} (hp : p ∈ chgFrom 0 z) :
    p ∈ boundaryList z := by
  unfold boundaryList
  exact List.mem_cons_of_mem _ (List.mem_append.2 (Or.inl hp))

theorem zero_mem_boundaryList (z : List Bool) : (0 : Nat) ∈ boundaryList z :=
  List.mem_cons_self _ _

theorem length_mem_boundaryList (z : List Bool) : z.length ∈ boundaryList z := by
  unfold boundaryList
  exact List.mem_cons_of_mem _ (List.mem_append.2 (Or.inr (by simp)))

/-- Circular run starts of a low-to-high series are members of the
boundary list. -/
theorem circRunStart_mem_boundary {z : List Bool} {i : Nat}
    (hi : i < z.length) (h0 : z.getD 0 false = false)
    (hflank : circRunStart z i) : i ∈ boundaryList z := by
  cases Nat.eq_zero_or_pos i with
  | inl h => exact h ▸ zero_mem_boundaryList z
  | inr hpos =>
    refine mem_boundaryList_of_chg ((chgFrom_mem z 0 i).2 ⟨i - 1, by omega, by omega, ?_⟩)
    unfold circRunStart at hflank
    have hmod1 : (i + z.length - 1) % z.length = i - 1 := by
      rw [show i + z.length - 1 = (i - 1) + 1 * z.length by omega]
      rw [Nat.add_mul_mod_self_right]
      exact Nat.mod_eq_of_lt (by omega)
    have hc1 : cget z (i + z.length - 1) = z.getD (i - 1) false := by
      unfold cget
      rw [hmod1]
    have hc2 : cget z i = z.getD i false := cget_eq_getD hi
    rw [hc1, hc2] at hflank
    rw [show i - 1 + 1 = i by omega]
    exact fun he => hflank (he ▸ rfl)

/-- Main direction: if every duration reported by the final
`_detect_segments` pass is at least `D`, then every circular run of the
(rolled) series is at least `D` long. -/
theorem runsGE_of_durations {z : List Bool} (D : Nat)
    (h0 : z.getD 0 false = false) (hlast : z.getD (z.length - 1) false = true)
    (hN : 1 ≤ z.length)
    (hcount : (upflanks z).length = (downflanks z).length + 1)
    (hlo : ∀ x ∈ durLo z, (D : Int) ≤ x)
    (hhi : ∀ x ∈ durHi z z.length, (D : Int) ≤ x) :
    minCircRunsOK z D := by
  have hchain : List.Chain' (fun a b => a + D ≤ b) (boundaryList z) := by
    rw [boundaryList_eq_interleave h0]
    exact (gaps_iff D (downflanks z) (upflanks z) 0 z.length hcount).2 ⟨hlo, hhi⟩
  have hpair := List.chain'_iff_pairwise.1 hchain
  intro i hi hflank j hjD hj0
  have himem : i ∈ boundaryList z := circRunStart_mem_boundary hi h0 hflank
  -- the next boundary is at least D away, so the window stays inside the list
  have hiN : i + D ≤ z.length := by
    rcases pairwise_rel_of_mem hpair himem (length_mem_boundaryList z) (by omega) with h | h
    · exact h
    · omega
  have hnochg : ∀ p, i < p → p ≤ i + j → p ∉ chgFrom 0 z := by
    intro p hp1 hp2 hpmem
    have hpb : p ∈ boundaryList z := mem_boundaryList_of_chg hpmem
    rcases pairwise_rel_of_mem hpair himem hpb (by omega) with h | h
    · omega
    · omega
  have hconst : z.getD (i + j) false = z.getD i false :=
    const_of_no_chg z j i (by omega) hnochg
  rw [cget_eq_getD (by omega : i + j < z.length), cget_eq_getD hi]
  exact hconst

theorem mem_boundaryList_iff {z : List Bool} {x : Nat} :
    x ∈ boundaryList z ↔ x = 0 ∨ x ∈ chgFrom 0 z ∨ x = z.length := by
  unfold boundaryList
  simp only [List.mem_cons, List.mem_append, List.mem_singleton]
  tauto

/-- A member of the boundary list below `N` is the start of a circular run
(for a series that starts low and ends high). -/
theorem circRunStart_of_boundary {z : List Bool} {a : Nat}
    (h0 : z.getD 0 false = false) (hlast : z.getD (z.length - 1) false = true)
    (hN : 1 ≤ z.length) (ha : a ∈ boundaryList z) (haN : a < z.length) :
    circRunStart z a := by
  rcases mem_boundaryList_iff.1 ha with h | h | h
  · subst h
    unfold circRunStart
    have hc1 : cget z (0 + z.length - 1) = z.getD (z.length - 1) false := by
      unfold cget
      rw [Nat.zero_add] at *
      rw [Nat.mod_eq_of_lt (by omega)]
    have hc2 : cget z 0 = z.getD 0 false := cget_eq_getD (by omega)
    rw [hc1, hc2, hlast, h0]
    simp
  · obtain ⟨k, hk1, hk2, hk3⟩ := (chgFrom_mem z 0 a).1 h
    unfold circRunStart
    have hmod1 : (a + z.length - 1) % z.length = a - 1 := by
      rw [show a + z.length - 1 = (a - 1) + 1 * z.length by omega]
      rw [Nat.add_mul_mod_self_right]
      exact Nat.mod_eq_of_lt (by omega)
    have hc1 : cget z (a + z.length - 1) = z.getD (a - 1) false := by
      unfold cget
      rw [hmod1]
    have hc2 : cget z a = z.getD a false := cget_eq_getD haN
    rw [hc1, hc2]
    have hk1' : a - 1 = k := by omega
    have hk1'' : a = k + 1 := by omega
    rw [hk1', hk1'']
    exact hk3
  · omega

/-- Converse direction: when every circular run is at least `D` long, every
duration that `_detect_segments` reports is at least `D`. -/
theorem durations_of_runsGE {z : List Bool} (D : Nat)
    (h0 : z.getD 0 false = false) (hlast : z.getD (z.length - 1) false = true)
    (hN : 1 ≤ z.length)
    (hcount : (upflanks z).length = (downflanks z).length + 1)
    (hruns : minCircRunsOK z D) :
    (∀ x ∈ durLo z, (D : Int) ≤ x) ∧ (∀ x ∈ durHi z z.length, (D : Int) ≤ x) := by
  refine (gaps_iff D (downflanks z) (upflanks z) 0 z.length hcount).1 ?_
  rw [show (0 : Nat) :: (interleave (upflanks z) (downflanks z) ++ [z.length]) =
      boundaryList z from (boundaryList_eq_interleave h0).symm]
  have hsorted := boundaryList_sorted hN
  have hpairlt := List.chain'_iff_pairwise.1 hsorted
  rw [List.chain'_iff_get]
  intro m hm
  set s := boundaryList z with hs
  have hmlen : m < s.length := by omega
  have hm1len : m + 1 < s.length := by omega
  set a := s.get ⟨m, hmlen⟩ with hadef
  set b := s.get ⟨m + 1, hm1len⟩ with hbdef
  have hab : a < b := List.pairwise_iff_get.1 hpairlt ⟨m, hmlen⟩ ⟨m + 1, hm1len⟩ (by simp)
  have hamem : a ∈ s := List.get_mem s m hmlen
  have hbmem : b ∈ s := List.get_mem s (m + 1) hm1len
  have hbN : b ≤ z.length := boundaryList_mem_le hbmem
  have haN : a < z.length := by omega
  have haflank : circRunStart z a := circRunStart_of_boundary h0 hlast hN hamem haN
  show a + D ≤ b
  by_contra hcon
  have hg1 : 1 ≤ b - a := by omega
  have hgD : b - a < D := by omega
  rcases mem_boundaryList_iff.1 hbmem with hb0 | hbchg | hbN'
  · omega
  · -- b is a linear flank: z[b-1] ≠ z[b], yet both equal z[a]
    obtain ⟨k, hk1, hk2, hk3⟩ := (chgFrom_mem z 0 b).1 hbchg
    have hwin : cget z (a + (b - a)) = cget z a :=
      hruns a haN haflank (b - a) hgD (by omega)
    have hbz : z.getD b false = z.getD a false := by
      rw [cget_eq_getD (by omega : a + (b - a) < z.length), cget_eq_getD haN] at hwin
      rw [show a + (b - a) = b by omega] at hwin
      exact hwin
    have hbz1 : z.getD (b - 1) false = z.getD a false := by
      by_cases hba : b - a = 1
      · rw [show b - 1 = a by omega]
      · have hwin' : cget z (a + (b - a - 1)) = cget z a :=
          hruns a haN haflank (b - a - 1) (by omega) (by omega)
        rw [cget_eq_getD (by omega : a + (b - a - 1) < z.length),
          cget_eq_getD haN] at hwin'
        rw [show a + (b - a - 1) = b - 1 by omega] at hwin'
        exact hwin'
    have hb1 : z.getD (b - 1) false ≠ z.getD b false := by
      have h1 : b - 1 = k := by omega
      have h2 : b = k + 1 := by omega
      rw [h1, h2]
      exact hk3
    exact hb1 (by rw [hbz1, hbz])
  · -- b = N: the run from a would wrap, contradicting the endpoint values
    rw [hbN'] at hg1 hgD
    have hwin : cget z (a + (z.length - a)) = cget z a :=
      hruns a haN haflank (z.length - a) hgD (by omega)
    have hza : z.getD a false = false := by
      rw [show a + (z.length - a) = z.length by omega] at hwin
      have hcN : cget z z.length = z.getD 0 false := by
        unfold cget
        rw [Nat.mod_self]
      rw [hcN, h0, cget_eq_getD haN] at hwin
      exact hwin.symm
    by_cases hlast_a : a = z.length - 1
    · rw [hlast_a] at hza
      rw [hza] at hlast
      exact absurd hlast (by simp)
    · have hwin' : cget z (a + (z.length - a - 1)) = cget z a :=
        hruns a haN haflank (z.length - a - 1) (by omega) (by omega)
      rw [cget_eq_getD (by omega : a + (z.length - a - 1) < z.length),
        cget_eq_getD haN] at hwin'
      rw [show a + (z.length - a - 1) = z.length - 1 by omega] at hwin'
      rw [hlast, hza] at hwin'
      exact absurd hwin' (by simp)

/-! ## Rotation invariance of the circular run property -/

theorem cget_rotate (y : List Bool) (n i : Nat) :
    cget (y.rotate n) i = cget y (i + n) := by
  rcases Nat.eq_zero_or_pos y.length with h0 | hpos
  · have hnil : y = [] := List.eq_nil_of_length_eq_zero h0
    subst hnil
    rfl
  · unfold cget
    rw [List.length_rotate]
    have hi : i % y.length < y.length := Nat.mod_lt _ hpos
    rw [List.getD_eq_getElem _ _ (by rw [List.length_rotate]; exact hi),
      List.getElem_rotate,
      List.getD_eq_getElem _ _ (Nat.mod_lt _ hpos)]
    congr 1
    rw [Nat.mod_add_mod]

theorem minCircRunsOK_rotate {y : List Bool} {D : Nat}
    (h : minCircRunsOK y D) (n : Nat) : minCircRunsOK (y.rotate n) D := by
  intro i hi hflank j hjD hj0
  rw [List.length_rotate] at hi
  have hpos : 0 < y.length := by omega
  have hi'N : (i + n) % y.length < y.length := Nat.mod_lt _ hpos
  have e2 : cget y ((i + n) % y.length) = cget y (i + n) := cget_mod y (i + n)
  have hflank' : circRunStart y ((i + n) % y.length) := by
    unfold circRunStart at hflank ⊢
    rw [List.length_rotate] at hflank
    rw [cget_rotate, cget_rotate] at hflank
    have e1 : cget y ((i + n) % y.length + y.length - 1) =
        cget y (i + y.length - 1 + n) := by
      apply cget_congr_mod
      rw [show (i + n) % y.length + y.length - 1 = (i + n) % y.length + (y.length - 1)
        by omega]
      rw [show i + y.length - 1 + n = i + n + (y.length - 1) by omega]
      rw [Nat.mod_add_mod]
    rw [e1, e2]
    exact hflank
  have hwin := h ((i + n) % y.length) hi'N hflank' j hjD hj0
  rw [cget_rotate, cget_rotate]
  have e3 : cget y ((i + n) % y.length + j) = cget y (i + j + n) := by
    apply cget_congr_mod
    rw [show i + j + n = i + n + j by omega]
    rw [Nat.mod_add_mod]
  rw [← e3, ← e2]
  exact hwin

theorem minCircRunsOK_rollRight {y : List Bool} {D : Nat}
    (h : minCircRunsOK y D) (t : Nat) : minCircRunsOK (rollRight y t) D := by
  unfold rollRight
  split
  · exact h
  · exact minCircRunsOK_rotate h _

/-! ## No-op behaviour of the removal sweeps -/

theorem removeShortSegs_noop (y : List Bool) (starts stops : List Nat)
    (durs : List Int) (D : Int) (v : Bool) (h : ∀ x ∈ durs, D ≤ x) :
    removeShortSegs y starts stops durs D v = y := by
  unfold removeShortSegs
  have hall : ∀ kd ∈ durs.zip (starts.zip stops), ¬(kd.1 < D) := by
    intro kd hkd
    have := (List.of_mem_zip hkd).1
    have := h _ this
    omega
  generalize hzip : durs.zip (starts.zip stops) = l at hall
  clear hzip
  induction l generalizing y with
  | nil => rfl
  | cons hd tl ih =>
    rw [List.foldl_cons, if_neg (hall hd (by simp))]
    exact ih y (fun kd hkd => hall kd (by simp [hkd]))

/-! ## The three rolls compose to the identity -/

theorem rollRight_rollLefts (y : List Bool) (t1 t2 t3 : Nat) :
    rollRight (rollLeft (rollLeft (rollLeft y t1) t2) t3) (t3 + t2 + t1) = y := by
  unfold rollLeft rollRight
  rw [List.rotate_rotate, List.rotate_rotate]
  by_cases h0 : y.length = 0
  · have hnil : y = [] := List.eq_nil_of_length_eq_zero h0
    subst hnil
    simp
  · rw [if_neg (by rw [List.length_rotate]; exact h0)]
    rw [List.length_rotate, List.rotate_rotate]
    have hpos : 0 < y.length := by omega
    have hkey : (t1 + (t2 + t3) + (y.length - (t3 + t2 + t1) % y.length)) % y.length = 0 := by
      conv_lhs => rw [← Nat.mod_add_mod]
      have hr : (t1 + (t2 + t3)) % y.length < y.length := Nat.mod_lt _ hpos
      have hsame : (t3 + t2 + t1) % y.length = (t1 + (t2 + t3)) % y.length := by
        rw [show t3 + t2 + t1 = t1 + (t2 + t3) by omega]
      rw [hsame]
      generalize hgen : (t1 + (t2 + t3)) % y.length = r at hr ⊢
      rw [show r + (y.length - r) = y.length by omega]
      exact Nat.mod_self y.length
    rw [← List.rotate_mod, hkey, List.rotate_zero]

/-! ## Packaged facts about a successful detection pass -/

theorem detect_ok_facts {yb : List Bool} {r : DetectRes}
    (h : detect_segments yb = .ok r) :
    r.y.length = yb.length ∧ 1 ≤ yb.length ∧
    r.y.getD 0 false = false ∧ r.y.getD (r.y.length - 1) false = true ∧
    (upflanks r.y).length = (downflanks r.y).length + 1 ∧
    r.durations_lo = durLo r.y ∧ r.durations_hi = durHi r.y yb.length := by
  obtain ⟨hfind, hy, _, _, _, hlo, hhi, hcount⟩ := detect_segments_ok h
  obtain ⟨ht1, htlen, _, _⟩ := find_first_downflank_spec hfind
  obtain ⟨hz0, hzlast⟩ := rolled_ends hfind
  have hlen : r.y.length = yb.length := by
    rw [hy]
    exact rollLeft_length _ _
  refine ⟨hlen, by omega, by rw [hy]; exact hz0, ?_, hcount, hlo, hhi⟩
  rw [hlen, hy]
  exact hzlast

/-- After a successful final detection pass with all durations at least
`D`, rolling the series back by any offset yields a series of the original
length in which every circular run is at least `D` long. -/
theorem stage3_minCirc {D : Nat} {yb : List Bool} {r3 : DetectRes} (toff : Nat)
    (heq3 : detect_segments yb = .ok r3)
    (hlo : ∀ x ∈ r3.durations_lo, (D : Int) ≤ x)
    (hhi : ∀ x ∈ r3.durations_hi, (D : Int) ≤ x) :
    (rollRight r3.y toff).length = yb.length ∧
    minCircRunsOK (rollRight r3.y toff) D := by
  obtain ⟨hlen, hN, hz0, hzl, hcount, hdlo, hdhi⟩ := detect_ok_facts heq3
  rw [hdlo] at hlo
  rw [hdhi] at hhi
  have hhi' : ∀ x ∈ durHi r3.y r3.y.length, (D : Int) ≤ x := by
    rw [hlen]
    exact hhi
  have hruns : minCircRunsOK r3.y D :=
    runsGE_of_durations D hz0 hzl (by omega) hcount hlo hhi'
  exact ⟨by rw [rollRight_length, hlen], minCircRunsOK_rollRight hruns toff⟩

/-- Converting the final sanity-check guard into duration lower bounds. -/
theorem guard_bounds {D : Int} {r3 : DetectRes}
    (hguard : ¬(r3.durations_lo.any (· < D) ∨ r3.durations_hi.any (· < D))) :
    (∀ x ∈ r3.durations_lo, D ≤ x) ∧ (∀ x ∈ r3.durations_hi, D ≤ x) := by
  push_neg at hguard
  obtain ⟨h1, h2⟩ := hguard
  simp only [ne_eq, Bool.not_eq_true, List.any_eq_false] at h1 h2
  constructor
  · intro x hx
    have hx' : ¬(x < D) := by simpa using h1 x hx
    omega
  · intro x hx
    have hx' : ¬(x < D) := by simpa using h2 x hx
    omega

/-- Main per-valve theorem: a normal return of the per-valve adjustment
loop preserves the series length and satisfies the minimum circular
run-length property. -/
theorem adjustColumn_ok {v D : Nat} {y0 out : List Bool}
    (h : adjustColumn v (D : Int) y0 = .ok out) :
    out.length = y0.length ∧ minCircRunsOK out D := by
  unfold adjustColumn at h
  split at h
  · simp at h
  · rename_i r1 heq1
    have hf1 := detect_ok_facts heq1
    split at h
    all_goals (
      split at h
      · simp at h
      · rename_i r2 heq2
        have hf2 := detect_ok_facts heq2
        split at h
        · simp at h
        · rename_i r3 heq3
          split at h
          · simp at h
          · rename_i hguard
            simp only [Except.ok.injEq] at h
            subst h
            obtain ⟨hg1, hg2⟩ := guard_bounds hguard
            obtain ⟨hfin_len, hfin_runs⟩ :=
              stage3_minCirc (r3.t_offset + r2.t_offset + r1.t_offset) heq3 hg1 hg2
            refine ⟨?_, hfin_runs⟩
            rw [hfin_len, removeShortSegs_length, hf2.1, removeShortSegs_length, hf1.1])

/-! ## Stack-level plumbing -/

theorem adjustColumns_ok {D : Int} {stack : List (List Bool)} :
    ∀ (vs : List Nat) (cols : List (List Bool)),
    adjustColumns D stack vs = .ok cols →
    cols.length = vs.length ∧
    ∀ m, m < vs.length →
      adjustColumn (vs.getD m 0) D (column stack (vs.getD m 0)) = .ok (cols.getD m []) := by
  intro vs
  induction vs with
  | nil =>
    intro cols h
    unfold adjustColumns at h
    simp only [Except.ok.injEq] at h
    subst h
    exact ⟨rfl, fun m hm => absurd hm (by simp)⟩
  | cons v vs' ih =>
    intro cols h
    unfold adjustColumns at h
    split at h
    · rename_i c cs hc hcs
      simp only [Except.ok.injEq] at h
      subst h
      obtain ⟨hlen, hrest⟩ := ih cs hcs
      refine ⟨by simpa using hlen, ?_⟩
      intro m hm
      cases m with
      | zero => simpa using hc
      | succ m' => simpa using hrest m' (by simpa using hm)
    · simp at h
    · simp at h

theorem adjustColumns_error_of_bad {D : Int} {stack : List (List Bool)} {v : Nat}
    (herr : ∀ out, adjustColumn v D (column stack v) ≠ .ok out) :
    ∀ (vs : List Nat), v ∈ vs → ∀ cols, adjustColumns D stack vs ≠ .ok cols := by
  intro vs
  induction vs with
  | nil => intro hmem; simp at hmem
  | cons w ws ih =>
    intro hmem cols h
    unfold adjustColumns at h
    rcases List.mem_cons.1 hmem with hv | hv
    · subst hv
      split at h
      · rename_i c cs hc _
        exact herr c hc
      · simp at h
      · simp at h
    · split at h
      · rename_i c cs _ hcs
        simp only [Except.ok.injEq] at h
        exact ih hv cs hcs
      · simp at h
      · simp at h

theorem getD_range {V m : Nat} (hm : m < V) : (List.range V).getD m 0 = m := by
  rw [List.getD_eq_getElem _ _ (by simpa using hm)]
  simp

theorem column_length (stack : List (List Bool)) (v : Nat) :
    (column stack v).length = stack.length := List.length_map _ _

theorem assembly_column {cols : List (List Bool)} {T V v : Nat} (hv : v < V) :
    column ((List.range T).map (fun t =>
      (List.range V).map (fun v' => (cols.getD v' []).getD t false))) v
      = (List.range T).map (fun t => (cols.getD v []).getD t false) := by
  unfold column
  rw [List.map_map]
  apply List.map_congr_left
  intro t _
  show ((List.range V).map (fun v' => (cols.getD v' []).getD t false)).getD v false = _
  rw [List.getD_eq_getElem _ _ (by simpa using hv)]
  simp

theorem getD_map_range_self {l : List Bool} {T : Nat} (hlen : l.length = T) :
    (List.range T).map (fun t => l.getD t false) = l := by
  apply List.ext_getElem (by simpa using hlen.symm)
  intro i h1 h2
  simp only [List.getElem_map, List.getElem_range]
  rw [List.getD_eq_getElem _ _ h2]

/-- C1 workhorse: unfolding a successful run of
`adjust_minimum_valve_durations` with `D ≥ 2`. -/
theorem adjust_ok_columns {stack out : List (List Bool)} {D : Nat} (hD : 2 ≤ D)
    (hok : adjust_minimum_valve_durations stack (D : Int) = .ok out) :
    out.length = stack.length ∧
    (∀ row ∈ out, row.length = nValves stack) ∧
    ∀ v, v < nValves stack →
      (column out v).length = stack.length ∧
      adjustColumn v (D : Int) (column stack v) = .ok (column out v) := by
  unfold adjust_minimum_valve_durations at hok
  rw [if_neg (by
    push_neg
    exact_mod_cast (by omega : (1 : Int) < (D : Int)))] at hok
  split at hok
  · simp at hok
  · rename_i cols hcols
    simp only [Except.ok.injEq] at hok
    subst hok
    obtain ⟨hclen, hcall⟩ := adjustColumns_ok (List.range (nValves stack)) cols hcols
    rw [List.length_range] at hclen
    refine ⟨by simp, ?_, ?_⟩
    · intro row hrow
      obtain ⟨t, _, hteq⟩ := List.mem_map.1 hrow
      rw [← hteq]
      simp
    · intro v hv
      have hcol := hcall v (by simpa using hv)
      rw [getD_range hv] at hcol
      have hlen_col : (cols.getD v []).length = stack.length := by
        have := (adjustColumn_ok (D := D) hcol).1
        rw [this, column_length]
      rw [assembly_column hv, getD_map_range_self hlen_col]
      exact ⟨hlen_col, hcol⟩

/-! ## Idempotence on already-adjusted columns -/

/-- On a series all of whose circular runs are at least `D` long, both
removal sweeps of a successful `adjustColumn` run are no-ops, so the three
rolls cancel and the series is returned unchanged. -/
theorem adjustColumn_id_of_good {v D : Nat} {c out : List Bool}
    (hgood : minCircRunsOK c D)
    (hok : adjustColumn v (D : Int) c = .ok out) : out = c := by
  unfold adjustColumn at hok
  split at hok
  · simp at hok
  · rename_i r1 heq1
    obtain ⟨hl1, hN1, hz01, hzl1, hcnt1, hdlo1, hdhi1⟩ := detect_ok_facts heq1
    have hy1 : r1.y = rollLeft c r1.t_offset := (detect_segments_ok heq1).2.1
    have hgood1 : minCircRunsOK r1.y D := by
      rw [hy1]
      exact minCircRunsOK_rotate hgood r1.t_offset
    obtain ⟨hblo1, hbhi1⟩ := durations_of_runsGE D hz01 hzl1 (by omega) hcnt1 hgood1
    have hnoop_hi1 : removeShortSegs r1.y r1.t_upfl r1.t_dnfl_star r1.durations_hi
        (D : Int) false = r1.y := by
      apply removeShortSegs_noop
      rw [hdhi1]
      intro x hx
      exact hbhi1 x (by rwa [← hl1] at hx)
    have hnoop_lo1 : removeShortSegs r1.y r1.t_dnfl r1.t_upfl r1.durations_lo
        (D : Int) true = r1.y := by
      apply removeShortSegs_noop
      rw [hdlo1]
      exact hblo1
    split at hok
    all_goals (
      first
      | rw [hnoop_hi1] at hok
      | rw [hnoop_lo1] at hok
      split at hok
      · simp at hok
      · rename_i r2 heq2
        obtain ⟨hl2, hN2, hz02, hzl2, hcnt2, hdlo2, hdhi2⟩ := detect_ok_facts heq2
        have hy2 : r2.y = rollLeft r1.y r2.t_offset := (detect_segments_ok heq2).2.1
        have hgood2 : minCircRunsOK r2.y D := by
          rw [hy2]
          exact minCircRunsOK_rotate hgood1 r2.t_offset
        obtain ⟨hblo2, hbhi2⟩ := durations_of_runsGE D hz02 hzl2 (by omega) hcnt2 hgood2
        have hnoop_hi2 : removeShortSegs r2.y r2.t_upfl r2.t_dnfl_star r2.durations_hi
            (D : Int) false = r2.y := by
          apply removeShortSegs_noop
          rw [hdhi2]
          intro x hx
          exact hbhi2 x (by rwa [← hl2] at hx)
        have hnoop_lo2 : removeShortSegs r2.y r2.t_dnfl r2.t_upfl r2.durations_lo
            (D : Int) true = r2.y := by
          apply removeShortSegs_noop
          rw [hdlo2]
          exact hblo2
        first
        | rw [hnoop_hi2] at hok
        | rw [hnoop_lo2] at hok
        split at hok
        · simp at hok
        · rename_i r3 heq3
          have hy3 : r3.y = rollLeft r2.y r3.t_offset := (detect_segments_ok heq3).2.1
          split at hok
          · simp at hok
          · simp only [Except.ok.injEq] at hok
            subst hok
            rw [hy3, hy2, hy1]
            exact rollRight_rollLefts c r1.t_offset r2.t_offset r3.t_offset)

theorem column_getD {s : List (List Bool)} {v t : Nat} (ht : t < s.length) :
    (column s v).getD t false = (s.getD t []).getD v false := by
  unfold column
  rw [List.getD_eq_getElem _ _ (by simpa using ht), List.getElem_map,
    List.getD_eq_getElem _ _ ht]

/-- Amended idempotence: whenever both applications of the adjuster return
normally, the second returns the first output unchanged. -/
theorem adjust_idem {stack out out2 : List (List Bool)} {D : Nat}
    (h1 : adjust_minimum_valve_durations stack (D : Int) = .ok out)
    (h2 : adjust_minimum_valve_durations out (D : Int) = .ok out2) :
    out2 = out := by
  by_cases hD : (D : Int) ≤ 1
  · unfold adjust_minimum_valve_durations at h1 h2
    rw [if_pos hD] at h1 h2
    simp only [Except.ok.injEq] at h1 h2
    rw [← h2]
  · have hD2 : 2 ≤ D := by
      have : ¬ D ≤ 1 := fun hle => hD (by exact_mod_cast hle)
      omega
    obtain ⟨hlen1, hrows1, hcols1⟩ := adjust_ok_columns hD2 h1
    obtain ⟨hlen2, hrows2, hcols2⟩ := adjust_ok_columns hD2 h2
    rcases Nat.eq_zero_or_pos out.length with hTout | hTpos
    · have hout2 : out2 = [] := List.eq_nil_of_length_eq_zero (by omega)
      have houtnil : out = [] := List.eq_nil_of_length_eq_zero hTout
      rw [hout2, houtnil]
    · have hne : out ≠ [] := by
        intro h
        rw [h] at hTpos
        simp at hTpos
      have hnVout : nValves out = nValves stack := by
        have hmem : out.headD [] ∈ out := by
          cases out with
          | nil => exact absurd rfl hne
          | cons a l => exact List.mem_cons_self _ _
        exact hrows1 _ hmem
      have hcoleq : ∀ v, v < nValves out → column out2 v = column out v := by
        intro v hv
        obtain ⟨hlc, hcol⟩ := hcols2 v hv
        have hgood : minCircRunsOK (column out v) D := by
          have := hcols1 v (by omega)
          exact (adjustColumn_ok this.2).2
        exact adjustColumn_id_of_good hgood hcol
      apply List.ext_getElem (by rw [hlen2])
      intro t h2t h1t
      have hrowlen2 : out2[t].length = nValves out :=
        hrows2 _ (List.getElem_mem h2t)
      have hrowlen1 : out[t].length = nValves out := by
        rw [hnVout]
        exact hrows1 _ (List.getElem_mem h1t)
      apply List.ext_getElem (by rw [hrowlen2, hrowlen1])
      intro v hv2 hv1
      have hvV : v < nValves out := by omega
      have e2 : out2[t][v] = (column out2 v).getD t false := by
        rw [column_getD h2t, List.getD_eq_getElem _ _ h2t,
          List.getD_eq_getElem _ _ hv2]
      have e1 : out[t][v] = (column out v).getD t false := by
        rw [column_getD h1t, List.getD_eq_getElem _ _ h1t,
          List.getD_eq_getElem _ _ hv1]
      rw [e2, e1, hcoleq v hvV]

/-! ## Further consequences of a successful detection -/

theorem durations_length {y : List Bool} {r : DetectRes}
    (h : detect_segments y = .ok r) :
    r.durations_lo.length = r.durations_hi.length := by
  obtain ⟨_, _, _, _, hcnt, hdlo, hdhi⟩ := detect_ok_facts h
  rw [hdlo, hdhi]
  unfold durLo durHi
  rw [List.length_zipWith, List.length_zipWith]
  simp only [List.length_cons, List.length_append, List.length_singleton]
  omega

theorem durations_sum {y : List Bool} {r : DetectRes}
    (h : detect_segments y = .ok r) :
    r.durations_lo.sum + r.durations_hi.sum = (y.length : Int) := by
  obtain ⟨_, _, _, _, hcnt, hdlo, hdhi⟩ := detect_ok_facts h
  rw [hdlo, hdhi]
  exact sum_durations _ _ _ hcnt

theorem minCircRunsOK_one (z : List Bool) : minCircRunsOK z 1 :=
  fun _ _ _ j hj hj0 => absurd hj0 (by omega)

theorem durations_pos {y : List Bool} {r : DetectRes}
    (h : detect_segments y = .ok r) :
    (∀ x ∈ r.durations_lo, 1 ≤ x) ∧ (∀ x ∈ r.durations_hi, 1 ≤ x) := by
  obtain ⟨hlen, hN, hz0, hzl, hcnt, hdlo, hdhi⟩ := detect_ok_facts h
  obtain ⟨hblo, hbhi⟩ :=
    durations_of_runsGE 1 hz0 hzl (by omega) hcnt (minCircRunsOK_one r.y)
  constructor
  · intro x hx
    have := hblo x (by rwa [← hdlo])
    exact_mod_cast this
  · intro x hx
    have := hbhi x (by
      rw [hdhi] at hx
      rwa [hlen])
    exact_mod_cast this

/-! ## When the downflank scan succeeds, and when it cannot -/

theorem ffdAux_true_some : ∀ (l : List Bool) (i : Nat),
    (∃ j, j < l.length ∧ l.getD j false = false) → ∃ t, ffdAux true i l = some t := by
  intro l
  induction l with
  | nil =>
    intro i h
    obtain ⟨j, hj, _⟩ := h
    simp at hj
  | cons v rest ih =>
    intro i h
    cases hv : v with
    | false => exact ⟨i, by unfold ffdAux; simp⟩
    | true =>
      obtain ⟨j, hj, hval⟩ := h
      have hj0 : j ≠ 0 := by
        intro h0
        rw [h0] at hval
        simp [hv] at hval
      obtain ⟨t, ht⟩ := ih (i + 1) ⟨j - 1, by simp at hj ⊢; omega, by
        have : (v :: rest).getD j false = rest.getD (j - 1) false := by
          rw [show j = (j - 1) + 1 by omega]
          simp
        rwa [this] at hval⟩
      exact ⟨t, by unfold ffdAux; simpa using ht⟩

theorem ffdAux_false_some : ∀ (l : List Bool) (i : Nat),
    (∃ a b, a < b ∧ b < l.length ∧ l.getD a false = true ∧ l.getD b false = false) →
    ∃ t, ffdAux false i l = some t := by
  intro l
  induction l with
  | nil =>
    intro i h
    obtain ⟨a, b, _, hb, _⟩ := h
    simp at hb
  | cons v rest ih =>
    intro i h
    obtain ⟨a, b, hab, hb, ha, hbval⟩ := h
    cases hv : v with
    | true =>
      have hb0 : b ≠ 0 := by
        intro h0
        rw [h0] at hbval
        simp [hv] at hbval
      obtain ⟨t, ht⟩ := ffdAux_true_some rest (i + 1) ⟨b - 1, by simp at hb ⊢; omega, by
        have : (v :: rest).getD b false = rest.getD (b - 1) false := by
          rw [show b = (b - 1) + 1 by omega]
          simp
        rwa [this] at hbval⟩
      exact ⟨t, by unfold ffdAux; simpa [hv] using ht⟩
    | false =>
      have ha0 : a ≠ 0 := by
        intro h0
        rw [h0] at ha
        simp [hv] at ha
      obtain ⟨t, ht⟩ := ih (i + 1) ⟨a - 1, b - 1, by omega, by simp at hb ⊢; omega, by
        have : (v :: rest).getD a false = rest.getD (a - 1) false := by
          rw [show a = (a - 1) + 1 by omega]
          simp
        rwa [this] at ha, by
        have : (v :: rest).getD b false = rest.getD (b - 1) false := by
          rw [show b = (b - 1) + 1 by omega]
          simp
        rwa [this] at hbval⟩
      exact ⟨t, by unfold ffdAux; simpa [hv] using ht⟩

theorem find_first_some_of_tf {y : List Bool} {i j : Nat} (hij : i < j)
    (hj : j < y.length) (hi : y.getD i false = true) (hjval : y.getD j false = false) :
    ∃ t, find_first_downflank y = some t := by
  match y with
  | [] => simp at hj
  | c :: rest =>
    unfold find_first_downflank
    cases hc : c with
    | true => exact ffdAux_true_some (c :: rest) 0 ⟨j, hj, hjval⟩ |>.imp (fun t ht => by rwa [hc] at ht)
    | false => exact ffdAux_false_some (c :: rest) 0 ⟨i, j, hij, hj, hi, hjval⟩ |>.imp (fun t ht => by rwa [hc] at ht)

theorem detect_segments_ok_of_tf {y : List Bool} {i j : Nat} (hij : i < j)
    (hj : j < y.length) (hi : y.getD i false = true) (hjval : y.getD j false = false) :
    ∃ r, detect_segments y = .ok r := by
  cases hd : detect_segments y with
  | ok r => exact ⟨r, rfl⟩
  | error e =>
    obtain ⟨_, hnone⟩ := detect_segments_error hd
    obtain ⟨t, ht⟩ := find_first_some_of_tf hij hj hi hjval
    rw [ht] at hnone
    simp at hnone

/-! ## Constant series crash the adjuster -/

theorem detect_segments_const {y0 : List Bool} (c : Bool) (h : ∀ b ∈ y0, b = c) :
    detect_segments y0 = .error .noFlanks := by
  unfold detect_segments
  rw [find_first_downflank_const c h]

theorem adjustColumn_const {v : Nat} {D : Int} {y0 : List Bool} (c : Bool)
    (h : ∀ b ∈ y0, b = c) : adjustColumn v D y0 = .error .noFlanks := by
  unfold adjustColumn
  rw [detect_segments_const c h]

theorem adjust_error_of_const_col {stack : List (List Bool)} {D : Int} {v : Nat}
    (c : Bool) (hD : 2 ≤ D) (hv : v < nValves stack)
    (hconst : ∀ b ∈ column stack v, b = c) :
    ∃ e, adjust_minimum_valve_durations stack D = .error e := by
  unfold adjust_minimum_valve_durations
  rw [if_neg (by omega)]
  cases hcols : adjustColumns D stack (List.range (nValves stack)) with
  | error e => exact ⟨e, rfl⟩
  | ok cols =>
    exfalso
    refine adjustColumns_error_of_bad ?_ (List.range (nValves stack))
      (by simpa using hv) cols hcols
    intro out hout
    rw [adjustColumn_const c hconst] at hout
    simp at hout

/-! ## The aliasing model never writes into the input -/

theorem removeShortSegsA_unaliased (starts stops : List Nat) (durs : List Int)
    (D : Int) (val : Bool) :
    ∀ st : VState, st.aliased = false →
    removeShortSegsA starts stops durs D val st =
      ⟨st.stack_in, st.valve_idx, removeShortSegs st.y starts stops durs D val, false⟩ := by
  unfold removeShortSegsA removeShortSegs
  generalize durs.zip (starts.zip stops) = l
  induction l with
  | nil =>
    intro st h
    cases st with
    | mk s v y al =>
      simp only at h
      subst h
      rfl
  | cons hd tl ih =>
    intro st h
    rw [List.foldl_cons, List.foldl_cons]
    by_cases hc : hd.1 < D
    · rw [if_pos hc, if_pos hc]
      have hw : writeSliceA hd.2.1 hd.2.2 val st =
          ⟨st.stack_in, st.valve_idx, setSlice st.y hd.2.1 hd.2.2 val, false⟩ := by
        unfold writeSliceA
        rw [h]
        simp
      rw [hw]
      exact ih _ rfl
    · rw [if_neg hc, if_neg hc]
      exact ih st h

theorem adjustColumnA_spec (v : Nat) (D : Int) (stack : List (List Bool)) :
    adjustColumnA v D stack = (adjustColumn v D (column stack v), stack) := by
  unfold adjustColumnA adjustColumn
  cases h1 : detect_segments (column stack v) with
  | error e => simp [detectA, h1]
  | ok r1 =>
    simp only [detectA, h1]
    by_cases hv : v % 2 = 0
    · rw [if_pos hv, if_pos hv]
      rw [removeShortSegsA_unaliased r1.t_upfl r1.t_dnfl_star r1.durations_hi D false
        ⟨stack, v, r1.y, false⟩ rfl]
      cases h2 : detect_segments
          (removeShortSegs r1.y r1.t_upfl r1.t_dnfl_star r1.durations_hi D false) with
      | error e => simp [detectA, h2]
      | ok r2 =>
        simp only [detectA, h2]
        rw [removeShortSegsA_unaliased r2.t_dnfl r2.t_upfl r2.durations_lo D true
          ⟨stack, v, r2.y, false⟩ rfl]
        cases h3 : detect_segments
            (removeShortSegs r2.y r2.t_dnfl r2.t_upfl r2.durations_lo D true) with
        | error e => simp [detectA, h3]
        | ok r3 =>
          simp only [detectA, h3]
          split <;> rfl
    · rw [if_neg hv, if_neg hv]
      rw [removeShortSegsA_unaliased r1.t_dnfl r1.t_upfl r1.durations_lo D true
        ⟨stack, v, r1.y, false⟩ rfl]
      cases h2 : detect_segments
          (removeShortSegs r1.y r1.t_dnfl r1.t_upfl r1.durations_lo D true) with
      | error e => simp [detectA, h2]
      | ok r2 =>
        simp only [detectA, h2]
        rw [removeShortSegsA_unaliased r2.t_upfl r2.t_dnfl_star r2.durations_hi D false
          ⟨stack, v, r2.y, false⟩ rfl]
        cases h3 : detect_segments
            (removeShortSegs r2.y r2.t_upfl r2.t_dnfl_star r2.durations_hi D false) with
        | error e => simp [detectA, h3]
        | ok r3 =>
          simp only [detectA, h3]
          split <;> rfl

theorem adjustColumnsA_spec (D : Int) : ∀ (vs : List Nat) (stack : List (List Bool)),
    adjustColumnsA D vs stack = (adjustColumns D stack vs, stack) := by
  intro vs
  induction vs with
  | nil => intro stack; rfl
  | cons v vs' ih =>
    intro stack
    unfold adjustColumnsA adjustColumns
    rw [adjustColumnA_spec]
    cases hc : adjustColumn v D (column stack v) with
    | error e => simp
    | ok c =>
      simp only [ih]
      cases adjustColumns D stack vs' <;> simp

/-! ## Mode-2 binarizer lemmas -/

theorem binarize_frame_carry {target : ℚ} {carry : Option ℚ} {frame : List ℚ}
    {out : FrameOut} {carry' : Option ℚ}
    (h : binarize_frame_newton target carry frame = .ok (out, carry')) :
    carry' = some out.threshold ∧
    (out.converged = false → carry = some out.threshold) := by
  unfold binarize_frame_newton at h
  split at h
  · rename_i tau heq
    simp only [Except.ok.injEq, Prod.mk.injEq] at h
    obtain ⟨h1, h2⟩ := h
    subst h1
    subst h2
    exact ⟨rfl, fun hc => by simp at hc⟩
  · rename_i tau heq
    match hc : carry with
    | none => simp at h
    | some tau0 =>
      simp only [Except.ok.injEq, Prod.mk.injEq] at h
      obtain ⟨h1, h2⟩ := h
      subst h1
      subst h2
      exact ⟨rfl, fun _ => rfl⟩

theorem binarize_stack_stale (target : ℚ) :
    ∀ (frames : List (List ℚ)) (carry : Option ℚ) (outs : List FrameOut),
    binarize_stack_using_newton target frames carry = .ok outs →
    outs.length = frames.length ∧
    (∀ ht : 0 < outs.length, (outs.get ⟨0, ht⟩).converged = false →
      carry = some (outs.get ⟨0, ht⟩).threshold) ∧
    (∀ t, (ht : t + 1 < outs.length) → (outs.get ⟨t + 1, ht⟩).converged = false →
      (outs.get ⟨t + 1, ht⟩).threshold =
        (outs.get ⟨t, by omega⟩).threshold) := by
  intro frames
  induction frames with
  | nil =>
    intro carry outs h
    unfold binarize_stack_using_newton at h
    simp only [Except.ok.injEq] at h
    subst h
    refine ⟨rfl, ?_, ?_⟩
    · intro ht
      simp at ht
    · intro t ht
      simp at ht
  | cons frame rest ih =>
    intro carry outs h
    unfold binarize_stack_using_newton at h
    split at h
    · simp at h
    · rename_i out carry' hframe
      split at h
      · rename_i outs' houts'
        simp only [Except.ok.injEq] at h
        subst h
        obtain ⟨hcarry', hstale⟩ := binarize_frame_carry hframe
        obtain ⟨hlen', hfirst', hstep'⟩ := ih carry' outs' houts'
        refine ⟨by simpa using hlen', ?_, ?_⟩
        · intro _ hconv
          exact hstale hconv
        · intro t ht hconv
          cases t with
          | zero =>
            have h0 : 0 < outs'.length := by
              simp only [List.length_cons] at ht
              omega
            have := hfirst' h0 (by simpa using hconv)
            rw [hcarry'] at this
            simp only [Option.some.injEq] at this
            show (outs'.get ⟨0, h0⟩).threshold = out.threshold
            exact this.symm
          | succ t' =>
            have ht' : t' + 1 < outs'.length := by
              simp only [List.length_cons] at ht
              omega
            have := hstep' t' ht' (by simpa using hconv)
            simpa using this
      · simp at h

/-! ## Concrete evaluations of the mode-2 binarizer -/

theorem evalA_solver :
    newton_fd (fun x => newton_fun x frameA (1/2)) (2/100) 20 0 = (1/5000, true) := by
  rw [show (20 : Nat) = 19 + 1 from rfl, newton_fd]
  norm_num [newton_fun, frameA, List.filter]
  intro h
  rw [show |(1 : ℚ)/5000| = 1/5000 from by rw [abs_of_pos]; norm_num] at h
  norm_num at h

theorem evalB_solver :
    newton_fd (fun x => newton_fun x frameB (1/2)) (2/100) 20 0 = (0, false) := by
  rw [show (20 : Nat) = 19 + 1 from rfl, newton_fd]
  norm_num [newton_fun, frameB, List.filter]

theorem evalA_frame : binarize_frame_newton (1/2) none frameA =
    .ok (⟨1/5000, true, [false, true, true, true], 3/4⟩, some (1/5000)) := by
  unfold binarize_frame_newton
  rw [evalA_solver]
  norm_num [frameA, List.filter]

theorem evalB_frame : binarize_frame_newton (1/2) (some (1/5000)) frameB =
    .ok (⟨1/5000, false, [false, true, true, true], 3/4⟩, some (1/5000)) := by
  unfold binarize_frame_newton
  rw [evalB_solver]
  norm_num [frameB, List.filter]

theorem evalAB_stack :
    binarize_stack_using_newton (1/2) [frameA, frameB] none = .ok C3outs := by
  simp only [binarize_stack_using_newton, evalA_frame, evalB_frame]
  rfl

theorem evalA_spec_guess : spec_newton_threshold frameA (1/2) = (1/2, false) := by
  unfold spec_newton_threshold
  rw [show (20 : Nat) = 19 + 1 from rfl, newton_fd]
  norm_num [frameA, List.filter]

/-! ## Splitting tab-joined tokens -/

theorem splitOnChar_ne_nil (c : Char) : ∀ (l : List Char), splitOnChar c l ≠ [] := by
  intro l
  induction l with
  | nil => simp [splitOnChar]
  | cons x xs ih =>
    unfold splitOnChar
    split
    · simp
    · split <;> simp

theorem splitOnChar_no_sep {c : Char} : ∀ {t : List Char}, c ∉ t →
    splitOnChar c t = [t] := by
  intro t
  induction t with
  | nil => intro _; rfl
  | cons x xs ih =>
    intro hc
    have hx : x ≠ c := fun h => hc (h ▸ List.mem_cons_self _ _)
    have hxs : c ∉ xs := fun h => hc (List.mem_cons_of_mem _ h)
    rw [show splitOnChar c (x :: xs) = match splitOnChar c xs with
        | [] => [[]]
        | h :: t => if x = c then [] :: h :: t else (x :: h) :: t from rfl]
    rw [ih hxs]
    dsimp only
    rw [if_neg hx]

theorem splitOnChar_append_sep {c : Char} : ∀ {t : List Char} (rest : List Char),
    c ∉ t → splitOnChar c (t ++ c :: rest) = t :: splitOnChar c rest := by
  intro t
  induction t with
  | nil =>
    intro rest _
    show splitOnChar c (c :: rest) = [] :: splitOnChar c rest
    rw [show splitOnChar c (c :: rest) = match splitOnChar c rest with
        | [] => [[]]
        | h :: t => if c = c then [] :: h :: t else (c :: h) :: t from rfl]
    cases hs : splitOnChar c rest with
    | nil => exact absurd hs (splitOnChar_ne_nil c rest)
    | cons h t' =>
      dsimp only
      rw [if_pos rfl]
  | cons x xs ih =>
    intro rest hc
    have hx : x ≠ c := fun h => hc (h ▸ List.mem_cons_self _ _)
    have hxs : c ∉ xs := fun h => hc (List.mem_cons_of_mem _ h)
    show splitOnChar c (x :: (xs ++ c :: rest)) = (x :: xs) :: splitOnChar c rest
    rw [show splitOnChar c (x :: (xs ++ c :: rest)) =
        match splitOnChar c (xs ++ c :: rest) with
        | [] => [[]]
        | h :: t => if x = c then [] :: h :: t else (x :: h) :: t from rfl]
    rw [ih rest hxs]
    dsimp only
    rw [if_neg hx]

theorem splitOnChar_join {c : Char} : ∀ (toks : List (List Char)) (t0 : List Char),
    c ∉ t0 → (∀ tok ∈ toks, c ∉ tok) →
    splitOnChar c (t0 ++ (toks.map (fun tok => c :: tok)).flatten) = t0 :: toks := by
  intro toks
  induction toks with
  | nil =>
    intro t0 h0 _
    rw [show (([] : List (List Char)).map (fun tok => c :: tok)).flatten = [] from rfl,
      List.append_nil]
    exact splitOnChar_no_sep h0
  | cons tok more ih =>
    intro t0 h0 hall
    have hassoc : t0 ++ ((tok :: more).map (fun tk => c :: tk)).flatten =
        t0 ++ c :: (tok ++ (more.map (fun tk => c :: tk)).flatten) := by
      simp
    rw [hassoc, splitOnChar_append_sep _ h0,
      ih tok (hall tok (by simp)) (fun tk htk => hall tk (by simp [htk]))]

/-! ## Decidable facts about the 112 valve tokens -/

set_option maxRecDepth 40000 in
theorem valve_token_facts : ∀ v, v < 112 →
    '\t' ∉ exportPointOfValve v ∧
    parsePointToken (exportPointOfValve v) = some (pcsPair v) := by
  decide

set_option maxRecDepth 40000 in
theorem pcsPair_inj : ∀ v, v < 112 → ∀ w, w < 112 → pcsPair v = pcsPair w → v = w := by
  decide

theorem parsePoints_of_valves : ∀ (l : List Nat), (∀ v ∈ l, v < 112) →
    parsePoints (l.map exportPointOfValve) = some (l.map pcsPair) := by
  intro l
  induction l with
  | nil => intro _; rfl
  | cons v vs ih =>
    intro hall
    show parsePoints (exportPointOfValve v :: vs.map exportPointOfValve) = _
    unfold parsePoints
    rw [(valve_token_facts v (hall v (by simp))).2,
      ih (fun w hw => hall w (by simp [hw]))]
    rfl

/-! ## Claim theorems -/

/-- C1: For every input valve stack (rectangular with `V` columns) and every
integer `D_min ≥ 2`, whenever `adjust_minimum_valve_durations` returns
normally, the output stack has the same shape `[T, V]` as the input and,
for every valve `v`, every maximal run of the circular series `out[:, v]`
(including a run that wraps the `t = T-1` to `t = 0` boundary) has length
at least `D_min`. -/
theorem C1_adjuster_shape_and_min_runs (stack out : List (List Bool)) (V D : Nat)
    (hD : 2 ≤ D) (hrect : ∀ row ∈ stack, row.length = V)
    (hok : adjust_minimum_valve_durations stack (D : Int) = .ok out) :
    (out.length = stack.length ∧ ∀ row ∈ out, row.length = V) ∧
    (∀ v, v < V → minCircRunsOK (column out v) D) := by
  obtain ⟨hlen, hrows, hcols⟩ := adjust_ok_columns hD hok
  rcases Nat.eq_zero_or_pos stack.length with hT0 | hTpos
  · have houtnil : out = [] := List.eq_nil_of_length_eq_zero (by omega)
    refine ⟨⟨hlen, ?_⟩, ?_⟩
    · intro row hrow
      rw [houtnil] at hrow
      simp at hrow
    · intro v _
      rw [houtnil]
      intro i hi
      simp [column] at hi
  · have hne : stack ≠ [] := by
      intro h
      rw [h] at hTpos
      simp at hTpos
    have hnV : nValves stack = V := by
      have hmem : stack.headD [] ∈ stack := by
        cases stack with
        | nil => exact absurd rfl hne
        | cons a l => exact List.mem_cons_self _ _
      exact hrect _ hmem
    rw [hnV] at hrows hcols
    refine ⟨⟨hlen, hrows⟩, ?_⟩
    intro v hv
    exact (adjustColumn_ok (hcols v hv).2).2

theorem C1_witness :
    (2 ≤ 2 ∧ (∀ row ∈ stackW1, row.length = 1) ∧
      adjust_minimum_valve_durations stackW1 ((2 : Nat) : Int) = .ok stackW1) ∧
    ((stackW1.length = stackW1.length ∧ ∀ row ∈ stackW1, row.length = 1) ∧
      (∀ v, v < 1 → minCircRunsOK (column stackW1 v) 2)) :=
  ⟨⟨le_refl 2, by decide, rfl⟩,
    C1_adjuster_shape_and_min_runs stackW1 stackW1 1 2 (le_refl 2) (by decide) rfl⟩

/-- C4 counterexample: with `D_min = 2` a constant valve series does not
make the adjuster return the stack unchanged; `NoFlanksDetectedException`
propagates instead. -/
theorem C4_counterexample :
    adjust_minimum_valve_durations stackC4 2 = .error .noFlanks ∧
    adjust_minimum_valve_durations stackC4 2 ≠ .ok stackC4 := by
  have h : adjust_minimum_valve_durations stackC4 2 = .error .noFlanks := rfl
  exact ⟨h, by rw [h]; simp⟩

/-- C4 (amended): when `D_min ≤ 1` the adjuster returns the whole input
stack unchanged; when `D_min ≥ 2` and some valve's circular series is
constant, the adjuster raises (the `NoFlanksDetectedException` of the
first failing valve propagates) instead of returning. -/
theorem C4_constant_series_raises (stack : List (List Bool)) (D : Int) :
    (D ≤ 1 → adjust_minimum_valve_durations stack D = .ok stack) ∧
    (2 ≤ D → ∀ v c, v < nValves stack → (∀ b ∈ column stack v, b = c) →
      ∃ e, adjust_minimum_valve_durations stack D = .error e) := by
  constructor
  · intro hD
    unfold adjust_minimum_valve_durations
    rw [if_pos hD]
  · intro hD v c hv hc
    exact adjust_error_of_const_col c hD hv hc

theorem C4_witness :
    ((1 : Int) ≤ 1 ∧ adjust_minimum_valve_durations stackC4 1 = .ok stackC4) ∧
    ((2 : Int) ≤ 2 ∧ 0 < nValves stackC4 ∧ (∀ b ∈ column stackC4 0, b = false) ∧
      ∃ e, adjust_minimum_valve_durations stackC4 2 = .error e) :=
  ⟨⟨le_refl _, (C4_constant_series_raises stackC4 1).1 (le_refl _)⟩,
    ⟨le_refl _, by decide, by decide,
      (C4_constant_series_raises stackC4 2).2 (le_refl _) 0 false (by decide) (by decide)⟩⟩

/-- C5 counterexample: the circular series `0,1,1` contains a circular
downflank (at the wrap, index 0), yet `_detect_segments` raises
`NoFlanksDetectedException` instead of returning segments. -/
theorem C5_counterexample :
    hasCircDownflank [false, true, true] ∧
    detect_segments [false, true, true] = .error .noFlanks :=
  ⟨by decide, rfl⟩

/-- C5 (amended): the two `MustDebugThisException` checks are unreachable
for every input; and for every circular 0/1 series in which a 1 sample
occurs strictly before a 0 sample (exactly when the linear downflank scan
succeeds — series of the form `0^a 1^b` raise `NoFlanksDetectedException`
despite their wrapping downflank), segment detection returns equally many
off- and on-durations, every duration is at least 1, and the durations
total the series length. -/
theorem C5_detect_segments_sound (y : List Bool) :
    detect_segments y ≠ .error .mustDebug ∧
    (∀ i j, i < j → j < y.length → y.getD i false = true → y.getD j false = false →
      ∃ r, detect_segments y = .ok r ∧
        r.durations_lo.length = r.durations_hi.length ∧
        (∀ x ∈ r.durations_lo, 1 ≤ x) ∧ (∀ x ∈ r.durations_hi, 1 ≤ x) ∧
        r.durations_lo.sum + r.durations_hi.sum = (y.length : Int)) := by
  refine ⟨detect_segments_ne_mustDebug y, ?_⟩
  intro i j hij hj hi hjval
  obtain ⟨r, hr⟩ := detect_segments_ok_of_tf hij hj hi hjval
  obtain ⟨hpos1, hpos2⟩ := durations_pos hr
  exact ⟨r, hr, durations_length hr, hpos1, hpos2, durations_sum hr⟩

theorem C5_witness :
    detect_segments [true, false] ≠ .error .mustDebug ∧
    (0 < 1 ∧ 1 < ([true, false] : List Bool).length ∧
      ([true, false] : List Bool).getD 0 false = true ∧
      ([true, false] : List Bool).getD 1 false = false) ∧
    (∃ r, detect_segments [true, false] = .ok r ∧
      r.durations_lo.length = r.durations_hi.length ∧
      (∀ x ∈ r.durations_lo, 1 ≤ x) ∧ (∀ x ∈ r.durations_hi, 1 ≤ x) ∧
      r.durations_lo.sum + r.durations_hi.sum = (([true, false] : List Bool).length : Int)) :=
  ⟨(C5_detect_segments_sound [true, false]).1,
    ⟨by decide, by decide, by decide, by decide⟩,
    (C5_detect_segments_sound [true, false]).2 0 1 (by decide) (by decide)
      (by decide) (by decide)⟩

/-- C6 counterexample: one adjuster application on this stack succeeds, but
re-applying it to the output raises `NoFlanksDetectedException` (the output
column has a single on-run and a single off-run), so the second application
does not return the same stack — it does not return at all. -/
theorem C6_counterexample :
    adjust_minimum_valve_durations stackC6 2 = .ok stackC6out ∧
    adjust_minimum_valve_durations stackC6out 2 = .error .noFlanks :=
  ⟨rfl, rfl⟩

/-- C6 (amended): the adjuster is idempotent on the runs where it does not
raise: whenever both the first and the second application return normally
(with the same `D_min`), the second application returns the first output
unchanged.  (A first application can succeed while the second raises, as
the counterexample shows.) -/
theorem C6_adjuster_idempotent (stack out out2 : List (List Bool)) (D : Nat)
    (h1 : adjust_minimum_valve_durations stack (D : Int) = .ok out)
    (h2 : adjust_minimum_valve_durations out (D : Int) = .ok out2) :
    out2 = out :=
  adjust_idem h1 h2

theorem C6_witness :
    adjust_minimum_valve_durations stackW1 ((2 : Nat) : Int) = .ok stackW1 ∧
    stackW1 = stackW1 :=
  ⟨rfl, C6_adjuster_idempotent stackW1 stackW1 stackW1 2 rfl rfl⟩

/-- C10: the adjuster never mutates its input.  In the alias-instrumented
embedding (where slice writes through a still-aliased column view would
update `valves_stack_in`), the input stack is element-for-element
unchanged after the call, because `_detect_segments` replaces the column
view by the fresh `np.roll` copy before any slice assignment; moreover the
instrumented run computes the same result as the pure embedding. -/
theorem C10_input_not_mutated (stack : List (List Bool)) (D : Int) (hD : 2 ≤ D) :
    (adjustAliased stack D).2 = stack ∧
    (adjustAliased stack D).1 = adjust_minimum_valve_durations stack D := by
  unfold adjustAliased adjust_minimum_valve_durations
  rw [if_neg (by omega), if_neg (by omega)]
  rw [adjustColumnsA_spec]
  cases adjustColumns D stack (List.range (nValves stack)) <;> simp

theorem C10_witness :
    (2 : Int) ≤ 2 ∧
    ((adjustAliased stackW1 2).2 = stackW1 ∧
      (adjustAliased stackW1 2).1 = adjust_minimum_valve_durations stackW1 2) :=
  ⟨le_refl _, C10_input_not_mutated stackW1 2 (le_refl _)⟩

/-- C2 counterexample: the mode-2 binarizer calls the solver with initial
guess `0` (the literal in the `optimize.newton` call), not `τ₀ = 1 − α*`.
On the frame `frameA` with `α* = 1/2` the code converges to threshold
`1/5000`, while Newton started from the spec's guess `1 − α* = 1/2`
diverges at `1/2`; the thresholds differ. -/
theorem C2_counterexample :
    binarize_frame_newton (1/2) none frameA =
      .ok (⟨1/5000, true, [false, true, true, true], 3/4⟩, some (1/5000)) ∧
    spec_newton_threshold frameA (1/2) = (1/2, false) ∧
    (1/5000 : ℚ) ≠ (spec_newton_threshold frameA (1/2)).1 := by
  refine ⟨evalA_frame, evalA_spec_guess, ?_⟩
  rw [evalA_spec_guess]
  norm_num

/-- C2 (amended): in binarization mode 2, on every frame where the solver
converges, the threshold is obtained by Newton's method (finite-difference
slope) on `f(τ) = α* − #{px : img > τ}/N²` with initial guess `τ₀ = 0`,
tolerance 0.02 and at most 20 iterations. -/
theorem C2_mode2_threshold_solved_from_zero (frame : List ℚ) (target : ℚ)
    (carry : Option ℚ) (out : FrameOut) (carry' : Option ℚ)
    (h : binarize_frame_newton target carry frame = .ok (out, carry'))
    (hconv : out.converged = true) :
    out.threshold =
      (newton_fd (fun tau => target -
        ((frame.filter (fun p => tau < p)).length : ℚ) / ((frame.length : ℚ)))
        (2/100) 20 0).1 := by
  unfold binarize_frame_newton at h
  split at h
  · rename_i tau heq
    simp only [Except.ok.injEq, Prod.mk.injEq] at h
    obtain ⟨h1, _⟩ := h
    subst h1
    show tau = _
    rw [show (fun tau => target -
        ((frame.filter (fun p => tau < p)).length : ℚ) / ((frame.length : ℚ)))
      = (fun x => newton_fun x frame target) from rfl]
    rw [heq]
  · rename_i tau heq
    match hc : carry with
    | none => simp at h
    | some tau0 =>
      simp only [Except.ok.injEq, Prod.mk.injEq] at h
      obtain ⟨h1, _⟩ := h
      subst h1
      simp at hconv

theorem C2_witness :
    binarize_frame_newton (1/2) none frameA =
      .ok (⟨1/5000, true, [false, true, true, true], 3/4⟩, some (1/5000)) ∧
    (1/5000 : ℚ) =
      (newton_fd (fun tau => 1/2 -
        ((frameA.filter (fun p => tau < p)).length : ℚ) / ((frameA.length : ℚ)))
        (2/100) 20 0).1 :=
  ⟨evalA_frame,
    C2_mode2_threshold_solved_from_zero frameA (1/2) none _ _ evalA_frame rfl⟩

/-- C3 counterexample: on the two-frame stack `[frameA, frameB]` with
`α* = 1/2`, frame 1 fails to converge and is binarized with the *stale*
threshold `1/5000` solved on frame 0 — not with the initial-guess
threshold: `1/5000 ≠ 1 − α*`, and the resulting binary frame differs from
thresholding at `1 − α*`. -/
theorem C3_counterexample :
    binarize_stack_using_newton (1/2) [frameA, frameB] none = .ok C3outs ∧
    C3outs = [⟨1/5000, true, [false, true, true, true], 3/4⟩,
              ⟨1/5000, false, [false, true, true, true], 3/4⟩] ∧
    (1/5000 : ℚ) ≠ 1 - 1/2 ∧
    ([false, true, true, true] : List Bool) ≠
      frameB.map (fun p => decide ((1 : ℚ) - 1/2 < p)) := by
  refine ⟨evalAB_stack, rfl, by norm_num, ?_⟩
  norm_num [frameB]

/-- C3 (amended): a per-frame Newton failure is soft as long as an earlier
frame has converged: the failure is recorded in `converged[t]`, processing
continues (every frame yields an output), and the frame is binarized with
the threshold still held by the Python local `threshold`, i.e. the
threshold of the previous frame (that of the most recent converged frame).
If the solver fails before any frame has converged, the run crashes with
`NameError` instead; in particular in a completed run the first frame has
always converged. -/
theorem C3_nonconvergence_soft_and_stale (target : ℚ) (frames : List (List ℚ))
    (outs : List FrameOut)
    (h : binarize_stack_using_newton target frames none = .ok outs) :
    outs.length = frames.length ∧
    (∀ ht : 0 < outs.length, (outs.get ⟨0, ht⟩).converged = true) ∧
    (∀ t, (ht : t + 1 < outs.length) → (outs.get ⟨t + 1, ht⟩).converged = false →
      (outs.get ⟨t + 1, ht⟩).threshold = (outs.get ⟨t, by omega⟩).threshold) := by
  obtain ⟨hlen, hfirst, hstep⟩ := binarize_stack_stale target frames none outs h
  refine ⟨hlen, ?_, hstep⟩
  intro ht
  cases hcv : (outs.get ⟨0, ht⟩).converged with
  | true => rfl
  | false => exact absurd (hfirst ht hcv) (by simp)

theorem C3_witness :
    binarize_stack_using_newton (1/2) [frameA, frameB] none = .ok C3outs ∧
    C3outs.length = [frameA, frameB].length ∧
    (C3outs.get ⟨0, by decide⟩).converged = true ∧
    ((C3outs.get ⟨1, by decide⟩).converged = false →
      (C3outs.get ⟨1, by decide⟩).threshold = (C3outs.get ⟨0, by decide⟩).threshold) := by
  obtain ⟨hlen, hfirst, hstep⟩ :=
    C3_nonconvergence_soft_and_stale (1/2) [frameA, frameB] C3outs evalAB_stack
  exact ⟨evalAB_stack, hlen, hfirst (by decide), fun hc => hstep 0 (by decide) hc⟩

/-- C7: round-trip of the protocol `[DATA]` lines.  For every valve state
row (112 bits), the exporter writes one line made of the frame duration
`round(DT_FRAME*1000)` in integer milliseconds followed by one
tab-separated `"x,y"` token per open valve (none for closed valves; an
all-closed row yields a line with only the duration), and the
`upload_protocol` parsing of that line recovers the duration and exactly
the same per-valve open bits. -/
theorem C7_export_parse_roundtrip (row : List Bool) (hlen : row.length = 112) :
    (DT_FRAME * 1000 : ℚ) = (durMs : ℚ) ∧
    parse_data_line (export_data_line durMs row) =
      some ((durMs : Int), openPoints row) ∧
    recover_row (openPoints row) = row := by
  have hall112 : ∀ v ∈ openIdx row, v < 112 := by
    intro v hv
    have h1 := (List.mem_filter.1 hv).1
    have h2 := List.mem_range.1 h1
    omega
  refine ⟨by norm_num [DT_FRAME, durMs], ?_, ?_⟩
  · have htoks : ∀ tok ∈ (openIdx row).map exportPointOfValve, '\t' ∉ tok := by
      intro tok htok
      obtain ⟨v, hv, rfl⟩ := List.mem_map.1 htok
      exact (valve_token_facts v (hall112 v hv)).1
    have hsplit : splitOnChar '\t' (export_data_line durMs row) =
        natToChars durMs :: (openIdx row).map exportPointOfValve := by
      unfold export_data_line
      rw [show ((openIdx row).map (fun v => '\t' :: exportPointOfValve v)).flatten =
          (((openIdx row).map exportPointOfValve).map (fun tok => '\t' :: tok)).flatten
        from by rw [List.map_map]; rfl]
      exact splitOnChar_join _ _ (by decide) htoks
    unfold parse_data_line
    rw [hsplit]
    dsimp only
    rw [show parseIntChars (natToChars durMs) = some ((durMs : Nat) : Int) from by decide]
    rw [parsePoints_of_valves (openIdx row) hall112]
    rfl
  · unfold recover_row
    apply List.ext_getElem
    · rw [List.length_map, List.length_range, hlen]
      rfl
    · intro i h1 h2
      simp only [List.getElem_map, List.getElem_range]
      have hi112 : i < 112 := by
        rw [List.length_map, List.length_range] at h1
        have hNV : N_VALVES = 112 := rfl
        omega
      by_cases hmem : pcsPair i ∈ openPoints row
      · rw [decide_eq_true hmem]
        obtain ⟨v, hv, hpveq⟩ := List.mem_map.1 hmem
        have hvi : v = i := pcsPair_inj v (hall112 v hv) i hi112 hpveq
        subst hvi
        have hval : row.getD v false = true := (List.mem_filter.1 hv).2
        have hgd : row.getD v false = row[v] := List.getD_eq_getElem row false h2
        rw [← hgd, hval]
      · rw [decide_eq_false hmem]
        cases hrv : row[i] with
        | false => rfl
        | true =>
          exfalso
          apply hmem
          refine List.mem_map.2 ⟨i, ?_, rfl⟩
          refine List.mem_filter.2 ⟨List.mem_range.2 (by omega), ?_⟩
          rw [List.getD_eq_getElem row false (by omega), hrv]

theorem C7_witness :
    (List.replicate 112 false : List Bool).length = 112 ∧
    ((DT_FRAME * 1000 : ℚ) = (durMs : ℚ) ∧
      parse_data_line (export_data_line durMs (List.replicate 112 false)) =
        some ((durMs : Int), openPoints (List.replicate 112 false)) ∧
      recover_row (openPoints (List.replicate 112 false)) = List.replicate 112 false) :=
  ⟨by simp, C7_export_parse_roundtrip (List.replicate 112 false) (by simp)⟩

/-- C8 counterexample: the header embeds `datetime.now()` in its DATE
line, so two runs of the pipeline with the identical configuration (the
repo's own `config_proto_opensimplex.py` values) but different wall-clock
times produce different `.proto` files, refuting byte-identical output. -/
theorem C8_counterexample :
    export_protocol_lines cfgSim004 "2026-10-12 10:00:00" []
      ≠ export_protocol_lines cfgSim004 "2026-10-12 10:00:01" [] := by
  decide

/-- C8 (amended): two runs with an identical configuration produce
`.proto` files that are byte-identical outside the DATE header line: for
every configuration, stack, and pair of timestamps, the two files agree
line-for-line after dropping line index 2, and line index 2 is exactly
the 25-column DATE key followed by the run's timestamp. -/
theorem C8_identical_outside_date_line (cfg : HeaderCfg) (d1 d2 : String)
    (stack : List (List Bool)) :
    (export_protocol_lines cfg d1 stack).eraseIdx 2
      = (export_protocol_lines cfg d2 stack).eraseIdx 2 ∧
    (export_protocol_lines cfg d1 stack).getD 2 ""
      = padKey "DATE" ++ d1 := by
  constructor
  · rfl
  · rfl

/-- C9: the layout has exactly `N_VALVES = 112` valves; the parallel
arrays `valve2pcs_x`/`valve2pcs_y` enumerate, in row-major order,
precisely the cells of the 15 by 15 grid on `[-7,7]^2` whose coordinate
sum is odd (the `[1::2]` slice of the flattened meshgrid); and
`valve2px_x`/`valve2px_y` send the valve in row `row = k / 15`, column
`col = k % 15` (cell index `k = 2*m + 1` for valve `m`) to the pixel
center `(32*(col+1) - 1, 32*(row+1) - 1)`. -/
theorem C9_valve_layout :
    N_VALVES = 112 ∧
    valve2pcs_x.length = 112 ∧ valve2pcs_y.length = 112 ∧
    valve2pcs_x.zip valve2pcs_y
      = gridCellsRowMajor.filter (fun p => (p.1 + p.2) % 2 = 1) ∧
    valve2px_x = (List.range 112).map
      (fun m => PCS_PIXEL_DIST * ((2 * m + 1) % 15 + 1) - 1) ∧
    valve2px_y = (List.range 112).map
      (fun m => PCS_PIXEL_DIST * ((2 * m + 1) / 15 + 1) - 1) := by
  refine ⟨rfl, by decide, by decide, by decide, by decide, by decide⟩

end JettingGrid
